import Mathlib

set_option maxHeartbeats 1000000

namespace Phantom

/-! # Shallow embedding of the `phantom_world` crate

Scene graphs (`src/crates/phantom_world/src/scenegraph.rs`) are petgraph
`Graph<T, ()>` values.  We model a petgraph directed graph as a list of node
weights (a node index is a position in that list) together with the list of
edges in insertion order.  petgraph's adjacency lists iterate edges most
recently inserted first; `Graph::remove_node` removes the incident edges and
then moves the node stored at the last index into the removed slot. -/

structure PGraph (α : Type) where
  nodes : List α
  edges : List (Nat × Nat)
deriving Repr, DecidableEq

namespace PGraph

variable {α : Type}

/-- `Graph::add_node`: appends the weight, returns the new index. -/
def addNode (g : PGraph α) (v : α) : PGraph α × Nat :=
  ({ g with nodes := g.nodes ++ [v] }, g.nodes.length)

/-- `SceneGraph::add_root_node` is `Graph::add_node`. -/
def addRootNode (g : PGraph α) (v : α) : PGraph α × Nat :=
  g.addNode v

/-- `SceneGraph::add_edge` / `Graph::add_edge`: records a parent → child edge. -/
def addEdge (g : PGraph α) (parent child : Nat) : PGraph α :=
  { g with edges := g.edges ++ [(parent, child)] }

/-- `SceneGraph::add_child`: adds the node, then an edge from the parent. -/
def addChild (g : PGraph α) (parent : Nat) (v : α) : PGraph α × Nat :=
  let (g1, childIndex) := g.addRootNode v
  (g1.addEdge parent childIndex, childIndex)

/-- Sources of edges into `i`, most recently inserted first
(petgraph `neighbors_directed(i, Incoming)` order). -/
def incomingSources (g : PGraph α) (i : Nat) : List Nat :=
  (g.edges.reverse.filter (fun e => e.2 == i)).map (·.1)

/-- Targets of edges out of `i`, most recently inserted first
(petgraph `neighbors_directed(i, Outgoing)` order). -/
def outNeighbors (g : PGraph α) (i : Nat) : List Nat :=
  (g.edges.reverse.filter (fun e => e.1 == i)).map (·.2)

/-- `SceneGraph::get_parent_of`: the first incoming neighbor, if any. -/
def firstParent (g : PGraph α) (i : Nat) : Option Nat :=
  (g.incomingSources i).head?

/-- First outgoing neighbor (`self.neighbors(i, Outgoing).next_node(..)`). -/
def firstChild (g : PGraph α) (i : Nat) : Option Nat :=
  (g.outNeighbors i).head?

/-- `SceneGraph::has_parents`. -/
def hasParents (g : PGraph α) (i : Nat) : Bool :=
  (g.firstParent i).isSome

/-- `SceneGraph::has_children`. -/
def hasChildren (g : PGraph α) (i : Nat) : Bool :=
  (g.firstChild i).isSome

/-- `SceneGraph::number_of_nodes`. -/
def numberOfNodes (g : PGraph α) : Nat :=
  g.nodes.length

/-- petgraph `Graph::remove_node`: removes the node and its incident edges and
moves the node previously stored at the last index into the freed slot,
renumbering edges that referenced the last index.  A node index that is out of
bounds is a no-op. -/
def removeNode (g : PGraph α) (a : Nat) : PGraph α :=
  match g.nodes.getLast? with
  | none => g
  | some w =>
    if a < g.nodes.length then
      let last := g.nodes.length - 1
      let renum := fun i => if i = last then a else i
      { nodes := (g.nodes.set a w).dropLast
        edges := (g.edges.filter (fun e => !(e.1 == a || e.2 == a))).map
          (fun e => (renum e.1, renum e.2)) }
    else g

mutual

/-- `SceneGraph::remove_node`: removes the node at the index, then repeatedly
removes the first outgoing neighbor of whatever node now sits at that index.
The Rust recursion is modelled with explicit fuel; the wrapper below supplies
more fuel than any execution can consume. -/
def sgRemoveNodeF : Nat → PGraph α → Nat → PGraph α
  | 0, g, _ => g
  | fuel + 1, g, a => sgRemoveLoopF fuel (g.removeNode a) a

/-- The `while let Some(child_index) = ...` loop inside `SceneGraph::remove_node`. -/
def sgRemoveLoopF : Nat → PGraph α → Nat → PGraph α
  | 0, g, _ => g
  | fuel + 1, g, a =>
    match g.firstChild a with
    | none => g
    | some c => sgRemoveLoopF fuel (sgRemoveNodeF fuel g c) a

end

end PGraph

/-- `SceneGraph::remove_node` with enough fuel for every actual execution. -/
def sgRemoveNode {α : Type} (g : PGraph α) (a : Nat) : PGraph α :=
  PGraph.sgRemoveNodeF (2 * g.nodes.length + 2 * g.edges.length + 2) g a

namespace PGraph

variable {α : Type}

/-- Node indices with no incoming edge, in ascending order: the roots
enumerated by `SceneGraph::walk` and `SceneGraph::root_node_indices`. -/
def rootIndices (g : PGraph α) : List Nat :=
  (List.range g.nodes.length).filter (fun i => !(g.hasParents i))

/-- Children of `i` in edge-insertion order.  petgraph's `Dfs` pushes the
reversed adjacency list on its stack, so it pops children in this order. -/
def childrenEO (g : PGraph α) (i : Nat) : List Nat :=
  (g.edges.filter (fun e => e.1 == i)).map (·.2)

/-- One petgraph `Dfs` run: pop the stack, skip discovered nodes, emit the
node, push its not-yet-discovered successors.  `fuel` bounds the number of
loop iterations; the wrapper below supplies enough fuel. -/
def dfsRun (g : PGraph α) : Nat → List Nat → List Nat → List Nat
  | 0, _, _ => []
  | _ + 1, [], _ => []
  | fuel + 1, n :: stack, disc =>
    if disc.contains n then dfsRun g fuel stack disc
    else
      n :: dfsRun g fuel
        (((g.outNeighbors n).filter (fun m => !(disc.contains m))).reverse ++ stack)
        (n :: disc)

/-- Fuel sufficient for any `dfsRun` on `g`. -/
def dfsFuel (g : PGraph α) : Nat :=
  g.nodes.length + 2 * g.edges.length + 2

/-- The sequence of node indices visited by `SceneGraph::walk`: a fresh
depth-first search from every root, roots in index order. -/
def walkOrder (g : PGraph α) : List Nat :=
  g.rootIndices.flatMap (fun r => dfsRun g (g.dfsFuel) [r] [])

end PGraph

/-- The scene graph error wrapper `SceneGraphError::WalkSceneGraph` applied to
the boxed error a walk visitor returned. -/
inductive SGErr (ε : Type) where
  | walkSceneGraph (e : ε)
deriving Repr, DecidableEq

namespace PGraph

variable {α : Type} {σ ε : Type}

/-- Threading a stateful visitor over the rest of one depth-first search.
The visitor (an `FnMut` closure in Rust) is modelled by explicit state
passing; `Except` is the visitor's `Result`. -/
def dfsRunS (g : PGraph α) (f : σ → Nat → σ × Except ε Unit) :
    Nat → List Nat → List Nat → σ → σ × Except ε Unit
  | 0, _, _, s => (s, .ok ())
  | _ + 1, [], _, s => (s, .ok ())
  | fuel + 1, n :: stack, disc, s =>
    if disc.contains n then dfsRunS g f fuel stack disc s
    else
      match f s n with
      | (s', .error e) => (s', .error e)
      | (s', .ok _) =>
        dfsRunS g f fuel
          (((g.outNeighbors n).filter (fun m => !(disc.contains m))).reverse ++ stack)
          (n :: disc) s'

/-- `SceneGraph::walk` restricted to the given list of roots. -/
def walkSAux (g : PGraph α) (f : σ → Nat → σ × Except ε Unit) :
    List Nat → σ → σ × Except (SGErr ε) Unit
  | [], s => (s, .ok ())
  | r :: rs, s =>
    match dfsRunS g f (g.dfsFuel) [r] [] s with
    | (s', .error e) => (s', .error (.walkSceneGraph e))
    | (s', .ok _) => walkSAux g f rs s'

/-- `SceneGraph::walk`: a fresh depth-first traversal from every root, applying
the visitor to each visited node, propagating the visitor's first error wrapped
in `SceneGraphError::WalkSceneGraph`. -/
def walkS (g : PGraph α) (f : σ → Nat → σ × Except ε Unit) (s : σ) :
    σ × Except (SGErr ε) Unit :=
  walkSAux g f g.rootIndices s

/-- Reference fold: apply the visitor to a list of nodes in order, stopping at
the first error. -/
def applyVisits (f : σ → Nat → σ × Except ε Unit) : σ → List Nat → σ × Except ε Unit
  | s, [] => (s, .ok ())
  | s, n :: rest =>
    match f s n with
    | (s', .error e) => (s', .error e)
    | (s', .ok _) => applyVisits f s' rest

/-- Wrap a visitor result the way `SceneGraph::walk` reports it. -/
def wrapSG : Except ε Unit → Except (SGErr ε) Unit
  | .ok _ => .ok ()
  | .error e => .error (.walkSceneGraph e)

end PGraph

/-- The scene graph built by the repository's own test fixture
`create_scenegraph`: values 4 and 12 with an edge from the first to the
second. -/
def exampleSceneGraph : PGraph Int :=
  let (g1, i1) := PGraph.addRootNode ⟨[], []⟩ (4 : Int)
  let (g2, i2) := g1.addRootNode (12 : Int)
  g2.addEdge i1 i2

/-! ## Forest structure

The spec requires the edge set of a scene graph to form a forest: every node
has at most one incoming edge and following parents always terminates at a
root.  These predicates make that invariant precise over the embedding. -/

namespace PGraph

variable {α : Type}

/-- Every edge endpoint is a valid node index. -/
def EdgesWF (g : PGraph α) : Prop :=
  ∀ e ∈ g.edges, e.1 < g.nodes.length ∧ e.2 < g.nodes.length

/-- No node has two incoming edges. -/
def AtMostOneParent (g : PGraph α) : Prop :=
  ∀ i < g.nodes.length, (g.edges.filter (fun e => e.2 == i)).length ≤ 1

/-- Distance to the root along the parent chain, with fuel. -/
def rootDist (g : PGraph α) : Nat → Nat → Option Nat
  | 0, _ => none
  | fuel + 1, i =>
    match g.firstParent i with
    | none => some 0
    | some p => (g.rootDist fuel p).map (· + 1)

/-- Every parent chain reaches a root: together with `AtMostOneParent` this
says the edges form a forest. -/
def Acyclic (g : PGraph α) : Prop :=
  ∀ i < g.nodes.length, (g.rootDist g.nodes.length i).isSome

/-- The forest invariant of the spec. -/
def Forest (g : PGraph α) : Prop :=
  g.EdgesWF ∧ g.AtMostOneParent ∧ g.Acyclic

/-- Depth of a node: its distance to the root of its tree. -/
def depth (g : PGraph α) (i : Nat) : Nat :=
  (g.rootDist g.nodes.length i).getD 0

/-- Iterate the parent map `k` times. -/
def parIter (g : PGraph α) : Nat → Nat → Option Nat
  | 0, i => some i
  | k + 1, i =>
    match g.firstParent i with
    | none => none
    | some p => g.parIter k p

/-- Preorder listing of the subtree below a node, with fuel. -/
def preo (g : PGraph α) : Nat → Nat → List Nat
  | 0, _ => []
  | fuel + 1, i => i :: (g.childrenEO i).flatMap (g.preo fuel)

/-- The subtree below a node in preorder; for a forest the default fuel is
enough to expand it fully. -/
def subtree (g : PGraph α) (i : Nat) : List Nat :=
  g.preo (g.nodes.length) i

end PGraph

/-- `x` is visited strictly before `y` in the sequence `l`. -/
def VisitedBefore (x y : Nat) (l : List Nat) : Prop :=
  List.Sublist [x, y] l

/-! ## Scalars, vectors, matrices

The engine computes with `f32`; the shallow embedding uses `ℝ`.  Vectors and
quaternions mirror the `glm` value types used by `transform.rs`. -/

/-- `glm::Vec3`. -/
structure V3 where
  x : ℝ
  y : ℝ
  z : ℝ

/-- `glm::Quat` (fields named as in `nalgebra::Quaternion`: `i`,`j`,`k` the
vector part, `w` the scalar part). -/
structure Qt where
  i : ℝ
  j : ℝ
  k : ℝ
  w : ℝ

/-- 4×4 real matrix, the embedding of `glm::Mat4`. -/
abbrev Mat4 := Matrix (Fin 4) (Fin 4) ℝ

namespace V3

def neg (v : V3) : V3 := ⟨-v.x, -v.y, -v.z⟩

def cross (a b : V3) : V3 :=
  ⟨a.y * b.z - a.z * b.y, a.z * b.x - a.x * b.z, a.x * b.y - a.y * b.x⟩

def dot (a b : V3) : ℝ := a.x * b.x + a.y * b.y + a.z * b.z

/-- `glm::normalize`. -/
noncomputable def normalize (v : V3) : V3 :=
  let n := Real.sqrt (v.dot v)
  ⟨v.x / n, v.y / n, v.z / n⟩

end V3

/-- A 3×3 matrix stored as three columns, matching glm's column-major
`mat3` as used by `quat_look_at` and `quat_cast`. -/
structure Col3 where
  c0 : V3
  c1 : V3
  c2 : V3

/-- `glm::quat_cast` of a 3×3 matrix: picks the numerically largest quaternion
component from the diagonal and reconstructs the rest. -/
noncomputable def quatCast (m : Col3) : Qt :=
  let fourXSquaredMinus1 := m.c0.x - m.c1.y - m.c2.z
  let fourYSquaredMinus1 := m.c1.y - m.c0.x - m.c2.z
  let fourZSquaredMinus1 := m.c2.z - m.c0.x - m.c1.y
  let fourWSquaredMinus1 := m.c0.x + m.c1.y + m.c2.z
  open Classical in
  let (fourBiggestSquaredMinus1, biggestIndex) :=
    if fourXSquaredMinus1 > fourWSquaredMinus1 then
      if fourYSquaredMinus1 > fourXSquaredMinus1 then
        if fourZSquaredMinus1 > fourYSquaredMinus1 then (fourZSquaredMinus1, 3)
        else (fourYSquaredMinus1, 2)
      else
        if fourZSquaredMinus1 > fourXSquaredMinus1 then (fourZSquaredMinus1, 3)
        else (fourXSquaredMinus1, 1)
    else
      if fourYSquaredMinus1 > fourWSquaredMinus1 then
        if fourZSquaredMinus1 > fourYSquaredMinus1 then (fourZSquaredMinus1, 3)
        else (fourYSquaredMinus1, 2)
      else
        if fourZSquaredMinus1 > fourWSquaredMinus1 then (fourZSquaredMinus1, 3)
        else (fourWSquaredMinus1, 0)
  let biggestVal := Real.sqrt (fourBiggestSquaredMinus1 + 1) * (1 / 2)
  let mult := (1 / 4) / biggestVal
  match biggestIndex with
  | 0 => ⟨(m.c1.z - m.c2.y) * mult, (m.c2.x - m.c0.z) * mult,
          (m.c0.y - m.c1.x) * mult, biggestVal⟩
  | 1 => ⟨biggestVal, (m.c0.y + m.c1.x) * mult,
          (m.c2.x + m.c0.z) * mult, (m.c1.z - m.c2.y) * mult⟩
  | 2 => ⟨(m.c0.y + m.c1.x) * mult, biggestVal,
          (m.c1.z + m.c2.y) * mult, (m.c2.x - m.c0.z) * mult⟩
  | _ => ⟨(m.c2.x + m.c0.z) * mult, (m.c1.z + m.c2.y) * mult,
          biggestVal, (m.c0.y - m.c1.x) * mult⟩

/-- `glm::quat_look_at` (right-handed): builds the orientation matrix and casts
it to a quaternion. -/
noncomputable def quatLookAt (direction up : V3) : Qt :=
  let c2 := direction.neg
  let c0 := (up.cross c2).normalize
  let c1 := c2.cross c0
  quatCast ⟨c0, c1, c2⟩

/-- `glm::quat_conjugate`. -/
def quatConjugate (q : Qt) : Qt := ⟨-q.i, -q.j, -q.k, q.w⟩

/-- `glm::translation`. -/
def translationMat (v : V3) : Mat4 :=
  !![1, 0, 0, v.x; 0, 1, 0, v.y; 0, 0, 1, v.z; 0, 0, 0, 1]

/-- `glm::scaling`. -/
def scalingMat (v : V3) : Mat4 :=
  !![v.x, 0, 0, 0; 0, v.y, 0, 0; 0, 0, v.z, 0; 0, 0, 0, 1]

/-- `glm::quat_to_mat4`, written row-by-row (glm stores columns). -/
def quatToMat4 (q : Qt) : Mat4 :=
  let xx := q.i * q.i
  let yy := q.j * q.j
  let zz := q.k * q.k
  let xz := q.i * q.k
  let xy := q.i * q.j
  let yz := q.j * q.k
  let wx := q.w * q.i
  let wy := q.w * q.j
  let wz := q.w * q.k
  !![1 - 2 * (yy + zz), 2 * (xy - wz), 2 * (xz + wy), 0;
     2 * (xy + wz), 1 - 2 * (xx + zz), 2 * (yz - wx), 0;
     2 * (xz - wy), 2 * (yz + wx), 1 - 2 * (xx + yy), 0;
     0, 0, 0, 1]

/-! ## Transform (`src/crates/phantom_world/src/transform.rs`) -/

/-- `Transform`: translation / rotation / scale. -/
structure TransformC where
  translation : V3
  rotation : Qt
  scale : V3

namespace TransformC

/-- `Transform::matrix`: translation times rotation times scaling, in this
order. -/
def matrix (t : TransformC) : Mat4 :=
  translationMat t.translation * quatToMat4 t.rotation * scalingMat t.scale

/-- `Transform::default`. -/
noncomputable def defaultT : TransformC :=
  { translation := ⟨0, 0, 0⟩
    rotation := quatConjugate (quatLookAt ⟨0, 0, 1⟩ ⟨0, 1, 0⟩)
    scale := ⟨1, 1, 1⟩ }

/-- `Transform::look_at`. -/
noncomputable def lookAt (t : TransformC) (target up : V3) : TransformC :=
  { t with rotation := quatConjugate (quatLookAt target up) }

end TransformC

/-- The translation component of `Transform::decompose_matrix`: the last
column of the matrix. -/
def decomposedTranslation (m : Mat4) : V3 :=
  ⟨m 0 3, m 1 3, m 2 3⟩

/-- The scale component of `Transform::decompose_matrix`: `m44` times the
Euclidean norms of the three upper-left columns. -/
noncomputable def decomposedScale (m : Mat4) : V3 :=
  ⟨m 3 3 * Real.sqrt (m 0 0 ^ 2 + m 1 0 ^ 2 + m 2 0 ^ 2),
   m 3 3 * Real.sqrt (m 0 1 ^ 2 + m 1 1 ^ 2 + m 2 1 ^ 2),
   m 3 3 * Real.sqrt (m 0 2 ^ 2 + m 1 2 ^ 2 + m 2 2 ^ 2)⟩

/-! ## Components and the ECS

`legion` is an external entity-component store; the embedding keeps, for each
live entity, the components the verified code paths read.  Entities are
natural numbers.  The `Camera` and `RigidBody` component types live in
`camera.rs` and `physics.rs`, which are not among the provided sources; their
fields follow the spec (§3, §4.3) and their uses in `world.rs`. -/

/-- Modelled from the spec: the perspective camera parameters (`camera.rs` is
not among the provided sources); fields follow `World::add_default_camera`. -/
structure PerspectiveCameraC where
  aspectRatio : Option ℝ
  yFovRad : ℝ
  zFar : Option ℝ
  zNear : ℝ

/-- Modelled from the spec: a camera projection is perspective or orthographic
(§4.3; the orthographic payload is "a variant not detailed further"). -/
inductive ProjectionC where
  | perspective (p : PerspectiveCameraC)
  | orthographic

/-- Modelled from the spec: the `Camera` component (`camera.rs` is not among
the provided sources); `world.rs` reads `name`, `projection` and `enabled`. -/
structure CameraC where
  name : String
  projection : ProjectionC
  enabled : Bool

/-- The `Light` component (`world.rs`). -/
structure LightC where
  color : V3

/-- Modelled from the spec: the `RigidBody` component holds a handle into the
physics bridge and a list of owned collider handles (§3; `physics.rs` is not
among the provided sources). -/
structure RigidBodyC where
  handle : Nat
  colliders : List Nat

/-- The components of one live entity that the verified code paths touch. -/
structure Row where
  name : Option String := none
  transform : Option TransformC := none
  camera : Option CameraC := none
  light : Option LightC := none
  rigidBody : Option RigidBodyC := none

/-- The entity-component store: live entities in insertion order with their
components, plus the id source for `push`. -/
structure Ecs where
  rows : List (Nat × Row)
  nextId : Nat

namespace Ecs

def empty : Ecs := ⟨[], 0⟩

/-- `Ecs::push`: a fresh entity holding the given components. -/
def push (ecs : Ecs) (r : Row) : Ecs × Nat :=
  (⟨ecs.rows ++ [(ecs.nextId, r)], ecs.nextId + 1⟩, ecs.nextId)

/-- `entry_ref` / `entry`: the components of a live entity. -/
def entryRef (ecs : Ecs) (e : Nat) : Option Row :=
  (ecs.rows.find? (fun er => er.1 == e)).map (·.2)

/-- Replace the row of a live entity. -/
def setRow (ecs : Ecs) (e : Nat) (r : Row) : Ecs :=
  ⟨ecs.rows.map (fun er => if er.1 == e then (er.1, r) else er), ecs.nextId⟩

/-- `Ecs::clear`. -/
def clear (ecs : Ecs) : Ecs := ⟨[], ecs.nextId⟩

end Ecs

/-! ## Physics bridge

`WorldPhysics` (in `physics.rs`, not among the provided sources) wraps the
external rapier simulation.  The world code reads and writes bodies through
`self.physics.bodies`, a handle-indexed collection of rigid bodies whose
observable state here is the pose used by the synchronization code. -/

/-- A rigid body's pose: the parts of the rapier body that
`world.rs` reads (`position().translation.vector`, `position().rotation`). -/
structure BodyC where
  translation : V3
  rotation : Qt

/-- Modelled from the spec: the physics bridge's body table (`physics.rs` is
not among the provided sources); `bodies.get(handle)` resolves a handle to a
body, stale handles resolve to nothing (§4.4, §7). -/
structure WorldPhysics where
  bodies : List (Nat × BodyC)

namespace WorldPhysics

def getBody (p : WorldPhysics) (h : Nat) : Option BodyC :=
  (p.bodies.find? (fun hb => hb.1 == h)).map (·.2)

def setBody (p : WorldPhysics) (h : Nat) (b : BodyC) : WorldPhysics :=
  ⟨p.bodies.map (fun hb => if hb.1 == h then (hb.1, b) else hb)⟩

end WorldPhysics

/-! ## Scene and World (`src/crates/phantom_world/src/world.rs`) -/

/-- `Scene`: a named list of entity scene graphs plus an optional skybox. -/
structure SceneC where
  name : String
  graphs : List (PGraph Nat)
  skybox : Option Nat

/-- `Scene::default()`: one empty default graph. -/
def SceneC.defaultS : SceneC :=
  ⟨"Unnamed Scene", [⟨[], []⟩], none⟩

/-- The `World` aggregate restricted to the state the verified claims touch:
the ECS, the physics bridge and the scene.  The material / texture / geometry
/ font tables take no part in any claim. -/
structure WorldM where
  ecs : Ecs
  physics : WorldPhysics
  scene : SceneC

/-- `World::default()`. -/
def WorldM.defaultW : WorldM :=
  ⟨Ecs.empty, ⟨[]⟩, SceneC.defaultS⟩

/-- The error cases of `WorldError` reachable in the embedded operations.
`walkEntitySceneGraph` folds together `WorldError::WalkEntitySceneGraph` and
the inner `SceneGraphError::WalkSceneGraph` wrapper around the boxed visitor
error.  `invalidNodeIndex` models the panic of indexing a petgraph graph with
a node index that is not present; `fuelExhausted` models non-termination of
the Rust recursion (unreachable on forests). -/
inductive WErr where
  | findEntity
  | getPhysicsBody
  | requestTransform
  | accessEntity
  | getComponent
  | findActiveCamera
  | findDefaultScenegraph
  | walkEntitySceneGraph (e : WErr)
  | invalidNodeIndex
  | fuelExhausted

namespace WorldM

/-- `World::global_transform`, fuel-indexed: the node's local `Transform`
matrix, premultiplied by the parent's global transform when the node has a
parent. -/
noncomputable def globalTransformF (w : WorldM) (g : PGraph Nat) :
    Nat → Nat → Except WErr Mat4
  | 0, _ => .error .fuelExhausted
  | fuel + 1, i =>
    match g.nodes[i]? with
    | none => .error .invalidNodeIndex
    | some entity =>
      match w.ecs.entryRef entity with
      | none => .error .accessEntity
      | some row =>
        match row.transform with
        | none => .error .requestTransform
        | some t =>
          match g.firstParent i with
          | none => .ok t.matrix
          | some p =>
            match w.globalTransformF g fuel p with
            | .error er => .error er
            | .ok mp => .ok (mp * t.matrix)

/-- `World::global_transform` with enough fuel for every forest. -/
noncomputable def globalTransform (w : WorldM) (g : PGraph Nat) (i : Nat) :
    Except WErr Mat4 :=
  w.globalTransformF g (g.nodes.length + 1) i

/-- The local `Transform` matrix of an entity, with the error cases of
`entry_ref` and `get_component`. -/
noncomputable def localTransformMatrix (w : WorldM) (e : Nat) : Except WErr Mat4 :=
  match w.ecs.entryRef e with
  | none => .error .accessEntity
  | some row =>
    match row.transform with
    | none => .error .getComponent
    | some t => .ok t.matrix

/-- The visitor closure of `World::entity_global_transform_matrix`: state is
the `(transform, found)` pair the Rust closure mutates. -/
noncomputable def egtmAction (w : WorldM) (g : PGraph Nat) (e : Nat) :
    (Mat4 × Bool) → Nat → (Mat4 × Bool) × Except WErr Unit :=
  fun st i =>
    match g.nodes[i]? with
    | none => (st, .error .invalidNodeIndex)
    | some v =>
      if v ≠ e then (st, .ok ())
      else
        match w.globalTransform g i with
        | .error er => (st, .error er)
        | .ok m => ((m, true), .ok ())

/-- The graph loop of `World::entity_global_transform_matrix`: walk each graph
in turn, stopping after the first graph in which the entity was found. -/
noncomputable def egtmLoop (w : WorldM) (e : Nat) :
    List (PGraph Nat) → (Mat4 × Bool) → Except WErr (Mat4 × Bool)
  | [], st => .ok st
  | g :: gs, st =>
    match PGraph.walkS g (w.egtmAction g e) st with
    | (_, .error (.walkSceneGraph er)) => .error (.walkEntitySceneGraph er)
    | (st', .ok _) => if st'.2 then .ok st' else w.egtmLoop e gs st'

/-- `World::entity_global_transform_matrix`: the composed global transform
from the first graph containing the entity, else the entity's local
`Transform` matrix. -/
noncomputable def entityGlobalTransformMatrix (w : WorldM) (e : Nat) :
    Except WErr Mat4 :=
  match w.egtmLoop e w.scene.graphs (1, false) with
  | .error er => .error er
  | .ok st => if st.2 then .ok st.1 else w.localTransformMatrix e

/-- `World::entity_model_matrix`: with a `RigidBody`, the matrix of the
transform made of the body's live translation and rotation and the scale part
of `Transform::from(global_transform)`; without one, the global transform
unchanged. -/
noncomputable def entityModelMatrix (w : WorldM) (e : Nat) (globalT : Mat4) :
    Except WErr Mat4 :=
  match w.ecs.entryRef e with
  | none => .error .accessEntity
  | some row =>
    match row.rigidBody with
    | none => .ok globalT
    | some rb =>
      match w.physics.getBody rb.handle with
      | none => .error .getPhysicsBody
      | some body =>
        .ok (TransformC.matrix
          ⟨body.translation, body.rotation, decomposedScale globalT⟩)

/-- `World::sync_rigid_body_to_transform`: push the transform's translation
into the body, keeping the body's rotation; missing body is a no-op. -/
def syncRigidBodyToTransform (w : WorldM) (e : Nat) : Except WErr WorldM :=
  match w.ecs.entryRef e with
  | none => .error .accessEntity
  | some row =>
    match row.rigidBody with
    | none => .error .getComponent
    | some rb =>
      match row.transform with
      | none => .error .getComponent
      | some t =>
        match w.physics.getBody rb.handle with
        | none => .ok w
        | some body =>
          .ok { w with physics :=
            w.physics.setBody rb.handle ⟨t.translation, body.rotation⟩ }

/-- `World::sync_transform_to_rigid_body`: pull the body's translation and
rotation into the transform; a handle that no longer resolves is a no-op. -/
def syncTransformToRigidBody (w : WorldM) (e : Nat) : Except WErr WorldM :=
  match w.ecs.entryRef e with
  | none => .error .accessEntity
  | some row =>
    match row.rigidBody with
    | none => .error .getComponent
    | some rb =>
      match row.transform with
      | none => .error .getComponent
      | some t =>
        match w.physics.getBody rb.handle with
        | none => .ok w
        | some body =>
          let t2 :=
            { t with translation := body.translation, rotation := body.rotation }
          .ok { w with ecs := w.ecs.setRow e { row with transform := some t2 } }

/-- `World::sync_all_rigid_bodies`: for every entity with both a `RigidBody`
and a `Transform`, pull the body's pose if the handle resolves. -/
def syncAllRigidBodies (w : WorldM) : WorldM :=
  { w with ecs :=
    { w.ecs with rows := w.ecs.rows.map (fun er =>
        match er.2.rigidBody, er.2.transform with
        | some rb, some t =>
          match w.physics.getBody rb.handle with
          | some body =>
            (er.1, { er.2 with transform := some { t with translation := body.translation, rotation := body.rotation } })
          | none => er
        | _, _ => er) } }

/-- `World::active_camera`: the first entity with an enabled camera. -/
def activeCamera (w : WorldM) : Except WErr Nat :=
  match w.ecs.rows.find? (fun er =>
      match er.2.camera with
      | some c => c.enabled
      | none => false) with
  | some er => .ok er.1
  | none => .error .findActiveCamera

/-- `World::MAIN_CAMERA_NAME`. -/
def mainCameraName : String := "Main Camera"

/-- The components `World::add_default_camera` pushes: the "Default Camera"
name, a transform looking back at the origin from (0, 0, 10), and an enabled
`Camera` named `MAIN_CAMERA_NAME` with a 70°-fov perspective projection. -/
noncomputable def defaultCameraRow : Row :=
  { name := some "Default Camera"
    transform := some (TransformC.lookAt
      { TransformC.defaultT with translation := ⟨0, 0, 10⟩ }
      (V3.neg ⟨0, 0, 10⟩) ⟨0, 1, 0⟩)
    camera := some
      { name := mainCameraName
        projection := .perspective ⟨none, 70 * Real.pi / 180, some 1000, 1 / 10⟩
        enabled := true } }

/-- The components `World::add_default_light` pushes. -/
noncomputable def defaultLightRow : Row :=
  { name := some "Default Light"
    transform := some (TransformC.lookAt
      { TransformC.defaultT with translation := ⟨-4, 2, 0⟩ }
      (V3.neg ⟨-4, 2, 0⟩) ⟨0, 1, 0⟩)
    light := some ⟨⟨1, 1, 1⟩⟩ }

/-- `World::add_default_camera`. -/
noncomputable def addDefaultCamera (w : WorldM) : Except WErr WorldM :=
  let (ecs1, cameraEntity) := w.ecs.push defaultCameraRow
  match w.scene.graphs with
  | [] => .error .findDefaultScenegraph
  | g :: gs =>
    .ok { w with ecs := ecs1,
                 scene := { w.scene with graphs := (g.addRootNode cameraEntity).1 :: gs } }

/-- `World::add_default_light`. -/
noncomputable def addDefaultLight (w : WorldM) : Except WErr WorldM :=
  let (ecs1, lightEntity) := w.ecs.push defaultLightRow
  match w.scene.graphs with
  | [] => .error .findDefaultScenegraph
  | g :: gs =>
    .ok { w with ecs := ecs1,
                 scene := { w.scene with graphs := (g.addRootNode lightEntity).1 :: gs } }

/-- `World::initialize`: a fresh default scene named "Main Scene" with the
default camera and light. -/
noncomputable def initWorld (w : WorldM) : Except WErr WorldM :=
  let w1 := { w with scene := { SceneC.defaultS with name := "Main Scene" } }
  match w1.addDefaultCamera with
  | .error er => .error er
  | .ok w2 =>
    match w2.addDefaultLight with
    | .error er => .error er
    | .ok w3 => .ok w3

/-- `World::new`. -/
noncomputable def newW : Except WErr WorldM :=
  WorldM.defaultW.initWorld

/-- `World::clear`: empty the ECS and the graphs, then re-initialize. -/
noncomputable def clear (w : WorldM) : Except WErr WorldM :=
  let w1 := { w with ecs := w.ecs.clear,
                     scene := { w.scene with graphs := [] } }
  w1.initWorld

end WorldM

/-! ## Registry-driven serialization (§4.6)

`World::as_bytes` / `World::from_bytes` serialize the world through the
process-wide component registry (`registry.rs`).  The serializer itself is
`legion`'s, reached through the `phantom_dependencies` crate, which is not
among the provided sources. -/

/-- `RegistryError` cases relevant to deserialization. -/
inductive RegErr where
  | unregisteredComponent
deriving Repr, DecidableEq

namespace Ser

/-- Modelled from the spec: the ECS as the registry-driven serializer sees it
(`phantom_dependencies`' `legion` re-export is not among the provided
sources) — per entity, components keyed by their registered string key, plus
the scene graphs whose payloads are entity ids (§4.6). -/
structure SWorld (β : Type) where
  rows : List (Nat × List (String × β))
  graphs : List (PGraph Nat)

/-- The component data stored for one key: `(entity, value)` pairs in entity
insertion order. -/
def componentsOf {β : Type} (w : SWorld β) (k : String) : List (Nat × β) :=
  w.rows.filterMap (fun er => (er.2.lookup k).map (fun v => (er.1, v)))

/-- Modelled from the spec: the canonicalized identity of an entity — its
position in the shared, consistent numbering scheme (§4.6). -/
def canonOf {β : Type} (w : SWorld β) (e : Nat) : Nat :=
  (w.rows.map (·.1)).indexOf e

/-- The component keys occurring in a world, without duplicates. -/
def usedKeys {β : Type} (w : SWorld β) : List String :=
  (w.rows.flatMap (fun er => er.2.map (·.1))).dedup

/-- Modelled from the spec: the binary blob — entity count, per-key component
tables over canonical entity ids, and the graphs over canonical ids (§4.6). -/
structure Blob (β : Type) where
  count : Nat
  comps : List (String × List (Nat × β))
  graphs : List (PGraph Nat)

/-- Modelled from the spec: serialization covers the ECS and the scene graphs,
canonicalizing entity identities; only component types present in the registry
snapshot are written (§4.6). -/
def serialize {β : Type} (reg : List String) (w : SWorld β) : Blob β :=
  { count := w.rows.length
    comps := ((usedKeys w).filter (fun k => reg.contains k)).map (fun k =>
      (k, (componentsOf w k).map (fun ev => (canonOf w ev.1, ev.2))))
    graphs := w.graphs.map (fun g => ⟨g.nodes.map (canonOf w), g.edges⟩) }

/-- Modelled from the spec: deserialization is symmetric, uses the registry
snapshot, and fails on a component key that is not registered rather than
dropping data (§4.6). -/
def deserialize {β : Type} (reg : List String) (b : Blob β) :
    Except RegErr (SWorld β) :=
  if b.comps.all (fun kl => reg.contains kl.1) then
    .ok { rows := (List.range b.count).map (fun i =>
            (i, b.comps.filterMap (fun kl =>
              (kl.2.lookup i).map (fun v => (kl.1, v)))))
          graphs := b.graphs }
  else .error .unregisteredComponent

end Ser

/-! # Theorems

Helper lemmas come first; the claim theorems and their witnesses close the
file. -/

/-! ## Association list helpers -/

theorem find_key_map_preserving {γ : Type} (l : List (Nat × γ)) (f : Nat × γ → Nat × γ)
    (hf : ∀ x, (f x).1 = x.1) (e : Nat) :
    (l.map f).find? (fun er => er.1 == e) =
      (l.find? (fun er => er.1 == e)).map f := by
  induction l with
  | nil => rfl
  | cons hd tl ih =>
    by_cases h : hd.1 = e
    · rw [List.map_cons, List.find?_cons_of_pos _ (by simp [hf, h]),
        List.find?_cons_of_pos _ (by simp [h])]
      rfl
    · rw [List.map_cons, List.find?_cons_of_neg _ (by simp [hf, h]),
        List.find?_cons_of_neg _ (by simp [h]), ih]

theorem find_update_self {γ : Type} (l : List (Nat × γ)) (e : Nat) (r : γ)
    (h : (l.find? (fun x => x.1 == e)).isSome) :
    (l.map (fun x => if x.1 == e then (x.1, r) else x)).find? (fun x => x.1 == e)
      = some (e, r) := by
  induction l with
  | nil => simp [List.find?] at h
  | cons hd tl ih =>
    by_cases he : hd.1 = e
    · rw [List.map_cons, if_pos (by simp [he]), List.find?_cons_of_pos _ (by simp [he])]
      simp [he]
    · rw [List.find?_cons_of_neg _ (by simp [he])] at h
      rw [List.map_cons, if_neg (by simp [he]), List.find?_cons_of_neg _ (by simp [he])]
      exact ih h

theorem Ecs.entryRef_setRow_self (ecs : Ecs) (e : Nat) (r row : Row)
    (h : ecs.entryRef e = some row) :
    (ecs.setRow e r).entryRef e = some r := by
  have hs : (ecs.rows.find? (fun x => x.1 == e)).isSome := by
    unfold Ecs.entryRef at h
    rcases ho : ecs.rows.find? (fun x => x.1 == e) with _ | v
    · rw [ho] at h; simp at h
    · simp [ho]
  unfold Ecs.entryRef Ecs.setRow
  rw [find_update_self ecs.rows e r hs]
  rfl

theorem WorldPhysics.getBody_setBody_self (p : WorldPhysics) (h : Nat) (b body : BodyC)
    (hres : p.getBody h = some body) :
    (p.setBody h b).getBody h = some b := by
  have hs : (p.bodies.find? (fun x => x.1 == h)).isSome := by
    unfold WorldPhysics.getBody at hres
    rcases ho : p.bodies.find? (fun x => x.1 == h) with _ | v
    · rw [ho] at hres; simp at hres
    · simp [ho]
  unfold WorldPhysics.getBody WorldPhysics.setBody
  rw [find_update_self p.bodies h b hs]
  rfl

/-! ## C1 — `SceneGraph::remove_node` does not remove the subtree -/

/-- C1: the claim says `remove_node(n)` removes `n` and every descendant,
leaving `original_count - size_of_subtree(n)` nodes.  On the repository's own
two-node fixture (values 4 and 12, edge 0 → 1) the subtree of node 0 has two
nodes, yet `remove_node(0)` leaves one node — the descendant holding 12
survives, because the code removes the node (and with it its outgoing edges)
before it looks up the children to recurse into. -/
theorem C1_remove_node_keeps_orphaned_descendant :
    (exampleSceneGraph.subtree 0).length = 2 ∧
    sgRemoveNode exampleSceneGraph 0 = ⟨[12], []⟩ ∧
    (sgRemoveNode exampleSceneGraph 0).numberOfNodes = 1 ∧
    ¬ (sgRemoveNode exampleSceneGraph 0).numberOfNodes =
        exampleSceneGraph.numberOfNodes - (exampleSceneGraph.subtree 0).length := by
  refine ⟨by decide, by decide, by decide, by decide⟩

/-! ## C3 — `World::entity_model_matrix` -/

/-- C3: for a live entity, `entity_model_matrix` returns the global transform
unchanged when the entity has no `RigidBody`; with a `RigidBody` whose handle
resolves, it returns the matrix of the transform assembled from the body's
translation and rotation and the scale decomposed from the global
transform. -/
theorem C3_entity_model_matrix (w : WorldM) (e : Nat) (row : Row) (globalT : Mat4)
    (hrow : w.ecs.entryRef e = some row) :
    (row.rigidBody = none → w.entityModelMatrix e globalT = .ok globalT) ∧
    (∀ rb body, row.rigidBody = some rb → w.physics.getBody rb.handle = some body →
      w.entityModelMatrix e globalT =
        .ok (TransformC.matrix ⟨body.translation, body.rotation, decomposedScale globalT⟩)) := by
  constructor
  · intro hnone
    simp [WorldM.entityModelMatrix, hrow, hnone]
  · intro rb body hrb hbody
    simp [WorldM.entityModelMatrix, hrow, hrb, hbody]

/-- A one-entity world without a rigid body and a second entity with one,
whose handle 7 resolves in the physics bridge. -/
noncomputable def c3World : WorldM :=
  { ecs := ⟨[(0, { transform := some TransformC.defaultT }),
             (1, { rigidBody := some ⟨7, []⟩ })], 2⟩
    physics := ⟨[(7, ⟨⟨5, 6, 7⟩, ⟨0, 0, 0, 1⟩⟩)]⟩
    scene := SceneC.defaultS }

theorem C3_entity_model_matrix_witness :
    (c3World.entityModelMatrix 0 (1 : Mat4) = .ok (1 : Mat4)) ∧
    c3World.entityModelMatrix 1 (1 : Mat4) =
      .ok (TransformC.matrix ⟨⟨5, 6, 7⟩, ⟨0, 0, 0, 1⟩, decomposedScale (1 : Mat4)⟩) := by
  constructor
  · exact (C3_entity_model_matrix c3World 0 { transform := some TransformC.defaultT } 1 rfl).1 rfl
  · exact (C3_entity_model_matrix c3World 1 { rigidBody := some ⟨7, []⟩ } 1 rfl).2
      ⟨7, []⟩ ⟨⟨5, 6, 7⟩, ⟨0, 0, 0, 1⟩⟩ rfl rfl

/-! ## C6 — push then pull synchronization round trip -/

/-- C6: with a live entity holding both a `RigidBody` (whose handle resolves)
and a `Transform`, `sync_rigid_body_to_transform` writes the transform's
translation into the body keeping the body's rotation, and a subsequent
`sync_transform_to_rigid_body` leaves the transform's translation unchanged. -/
theorem C6_sync_round_trip (w : WorldM) (e : Nat) (row : Row) (rb : RigidBodyC)
    (t : TransformC) (body : BodyC)
    (hrow : w.ecs.entryRef e = some row) (hrb : row.rigidBody = some rb)
    (ht : row.transform = some t) (hbody : w.physics.getBody rb.handle = some body) :
    ∃ w1 w2 row2 t2,
      w.syncRigidBodyToTransform e = .ok w1 ∧
      w1.physics.getBody rb.handle = some ⟨t.translation, body.rotation⟩ ∧
      w1.syncTransformToRigidBody e = .ok w2 ∧
      w2.ecs.entryRef e = some row2 ∧ row2.transform = some t2 ∧
      t2.translation = t.translation := by
  have hpush : w.syncRigidBodyToTransform e =
      .ok { w with physics := w.physics.setBody rb.handle ⟨t.translation, body.rotation⟩ } := by
    simp [WorldM.syncRigidBodyToTransform, hrow, hrb, ht, hbody]
  set w1 : WorldM :=
    { w with physics := w.physics.setBody rb.handle ⟨t.translation, body.rotation⟩ } with hw1
  have hb1 : w1.physics.getBody rb.handle = some ⟨t.translation, body.rotation⟩ :=
    WorldPhysics.getBody_setBody_self w.physics rb.handle _ body hbody
  have hrow1 : w1.ecs.entryRef e = some row := hrow
  set t2 : TransformC :=
    { t with translation := t.translation, rotation := body.rotation } with ht2
  set row2 : Row := { row with transform := some t2 } with hrow2
  have hpull : w1.syncTransformToRigidBody e =
      .ok { w1 with ecs := w1.ecs.setRow e row2 } := by
    simp [WorldM.syncTransformToRigidBody, hrow1, hrb, ht, hb1, ht2, hrow2]
  refine ⟨w1, _, row2, t2, hpush, hb1, hpull, ?_, rfl, rfl⟩
  exact Ecs.entryRef_setRow_self w1.ecs e row2 row hrow1

/-- A world with one entity that has a transform and a rigid body whose
handle 3 resolves. -/
def c6World : WorldM :=
  { ecs := ⟨[(0, { transform := some ⟨⟨1, 2, 3⟩, ⟨0, 0, 0, 1⟩, ⟨1, 1, 1⟩⟩,
                   rigidBody := some ⟨3, []⟩ })], 1⟩
    physics := ⟨[(3, ⟨⟨9, 9, 9⟩, ⟨0, 1, 0, 0⟩⟩)]⟩
    scene := SceneC.defaultS }

theorem C6_sync_round_trip_witness :
    ∃ w1 w2 row2 t2,
      c6World.syncRigidBodyToTransform 0 = .ok w1 ∧
      w1.physics.getBody 3 = some ⟨⟨1, 2, 3⟩, ⟨0, 1, 0, 0⟩⟩ ∧
      w1.syncTransformToRigidBody 0 = .ok w2 ∧
      w2.ecs.entryRef 0 = some row2 ∧ row2.transform = some t2 ∧
      t2.translation = V3.mk 1 2 3 := by
  exact C6_sync_round_trip c6World 0
    { transform := some ⟨⟨1, 2, 3⟩, ⟨0, 0, 0, 1⟩, ⟨1, 1, 1⟩⟩, rigidBody := some ⟨3, []⟩ }
    ⟨3, []⟩ ⟨⟨1, 2, 3⟩, ⟨0, 0, 0, 1⟩, ⟨1, 1, 1⟩⟩ ⟨⟨9, 9, 9⟩, ⟨0, 1, 0, 0⟩⟩
    rfl rfl rfl rfl

/-! ## C7 — stale rigid-body handles on the pull path -/

/-- A world whose only entity owns a `RigidBody` with stale handle 5 and no
`Transform` component. -/
def c7NoTransformWorld : WorldM :=
  { ecs := ⟨[(0, { rigidBody := some ⟨5, []⟩ })], 1⟩
    physics := ⟨[]⟩
    scene := SceneC.defaultS }

/-- C7 counterexample: the claim promises that `sync_transform_to_rigid_body`
returns successfully for every entity whose `RigidBody` handle does not
resolve, but an entity that lacks a `Transform` component makes the code
return a component-lookup error before it even consults the physics bridge. -/
theorem C7_stale_handle_counterexample :
    (c7NoTransformWorld.ecs.entryRef 0).isSome ∧
    (∃ row, c7NoTransformWorld.ecs.entryRef 0 = some row ∧
      row.rigidBody = some ⟨5, []⟩) ∧
    c7NoTransformWorld.physics.getBody 5 = none ∧
    c7NoTransformWorld.syncTransformToRigidBody 0 = .error .getComponent := by
  exact ⟨rfl, ⟨{ rigidBody := some ⟨5, []⟩ }, rfl, rfl⟩, rfl, rfl⟩

/-- C7 as amended: for a live entity holding a `RigidBody` whose handle does
not resolve *and a `Transform`*, `sync_transform_to_rigid_body` succeeds and
returns the world unchanged, and `sync_all_rigid_bodies` (which never fails)
leaves the entity's row unchanged. -/
theorem C7_stale_handle_noop (w : WorldM) (e : Nat) (row : Row) (rb : RigidBodyC)
    (t : TransformC)
    (hrow : w.ecs.entryRef e = some row) (hrb : row.rigidBody = some rb)
    (ht : row.transform = some t) (hstale : w.physics.getBody rb.handle = none) :
    w.syncTransformToRigidBody e = .ok w ∧
    (w.syncAllRigidBodies).ecs.entryRef e = some row := by
  constructor
  · simp [WorldM.syncTransformToRigidBody, hrow, hrb, ht, hstale]
  · unfold WorldM.syncAllRigidBodies Ecs.entryRef
    rw [find_key_map_preserving _ _ (fun x => by
      rcases x with ⟨a, r⟩
      dsimp only
      rcases hr : r.rigidBody with _ | rb2 <;> rcases htr : r.transform with _ | t2 <;>
          simp only [hr, htr]
      rcases hb : w.physics.getBody rb2.handle with _ | b <;> simp only [hb])]
    unfold Ecs.entryRef at hrow
    rcases hfind : w.ecs.rows.find? (fun er => er.1 == e) with _ | er
    · rw [hfind] at hrow; simp at hrow
    · rw [hfind] at hrow
      rcases er with ⟨a, r⟩
      simp at hrow
      subst hrow
      simp only [hfind]
      simp [hrb, ht, hstale]

/-- A world with one entity holding a `Transform` and a `RigidBody` whose
handle 5 is stale. -/
def c7World : WorldM :=
  { ecs := ⟨[(0, { transform := some ⟨⟨1, 2, 3⟩, ⟨0, 0, 0, 1⟩, ⟨1, 1, 1⟩⟩,
                   rigidBody := some ⟨5, []⟩ })], 1⟩
    physics := ⟨[]⟩
    scene := SceneC.defaultS }

theorem C7_stale_handle_noop_witness :
    c7World.syncTransformToRigidBody 0 = .ok c7World ∧
    (c7World.syncAllRigidBodies).ecs.entryRef 0 =
      some { transform := some ⟨⟨1, 2, 3⟩, ⟨0, 0, 0, 1⟩, ⟨1, 1, 1⟩⟩,
             rigidBody := some ⟨5, []⟩ } := by
  exact C7_stale_handle_noop c7World 0
    { transform := some ⟨⟨1, 2, 3⟩, ⟨0, 0, 0, 1⟩, ⟨1, 1, 1⟩⟩, rigidBody := some ⟨5, []⟩ }
    ⟨5, []⟩ ⟨⟨1, 2, 3⟩, ⟨0, 0, 0, 1⟩, ⟨1, 1, 1⟩⟩ rfl rfl rfl rfl

/-! ## Forest lemmas -/

namespace PGraph

variable {α : Type}

theorem firstParent_mem {g : PGraph α} {i p : Nat} (h : g.firstParent i = some p) :
    (p, i) ∈ g.edges := by
  unfold firstParent incomingSources at h
  rcases hl : g.edges.reverse.filter (fun e => e.2 == i) with _ | ⟨⟨a, b⟩, rest⟩
  · rw [hl] at h; simp at h
  · rw [hl] at h
    simp only [List.map_cons, List.head?_cons, Option.some_inj] at h
    have hmem : (a, b) ∈ g.edges.reverse.filter (fun e => e.2 == i) := by
      rw [hl]; exact List.mem_cons_self _ _
    have hmf := List.mem_filter.mp hmem
    have hb : b = i := by simpa using hmf.2
    have ha : a = p := h
    subst hb; subst ha
    exact List.mem_reverse.mp hmf.1

theorem rootDist_mono {g : PGraph α} :
    ∀ {f f' i : Nat}, (g.rootDist f i).isSome → f ≤ f' →
      g.rootDist f' i = g.rootDist f i := by
  intro f
  induction f with
  | zero => intro f' i h _; simp [rootDist] at h
  | succ f ih =>
    intro f' i h hle
    rcases f' with _ | f''
    · omega
    · unfold rootDist at h ⊢
      rcases hp : g.firstParent i with _ | p
      · simp [hp]
      · simp only [hp] at h ⊢
        have h2 : (g.rootDist f p).isSome := by
          rcases hr : g.rootDist f p with _ | d
          · rw [hr] at h; simp at h
          · simp
        rw [ih h2 (Nat.le_of_succ_le_succ hle)]

theorem rootDist_lt {g : PGraph α} :
    ∀ {f i d : Nat}, g.rootDist f i = some d → d < f := by
  intro f
  induction f with
  | zero => intro i d h; simp [rootDist] at h
  | succ f ih =>
    intro i d h
    unfold rootDist at h
    rcases hp : g.firstParent i with _ | p
    · simp only [hp, Option.some_inj] at h
      omega
    · simp only [hp] at h
      rcases hr : g.rootDist f p with _ | d'
      · rw [hr] at h; simp at h
      · rw [hr] at h
        simp only [Option.map_some', Option.some_inj] at h
        have := ih hr
        omega

theorem rootDist_eq_depth {g : PGraph α} (hf : g.Forest) {i : Nat}
    (hi : i < g.nodes.length) : g.rootDist g.nodes.length i = some (g.depth i) := by
  rcases hf with ⟨_, _, hac⟩
  rcases hr : g.rootDist g.nodes.length i with _ | d
  · exact absurd (hac i hi) (by simp [hr])
  · simp [depth, hr]

theorem depth_lt {g : PGraph α} (hf : g.Forest) {i : Nat} (hi : i < g.nodes.length) :
    g.depth i < g.nodes.length :=
  rootDist_lt (rootDist_eq_depth hf hi)

theorem depth_parent {g : PGraph α} (hf : g.Forest) {i p : Nat}
    (hi : i < g.nodes.length) (hp : g.firstParent i = some p) :
    p < g.nodes.length ∧ g.depth i = g.depth p + 1 := by
  have hmem := firstParent_mem hp
  have hpn : p < g.nodes.length := (hf.1 _ hmem).1
  refine ⟨hpn, ?_⟩
  have hd := rootDist_eq_depth hf hi
  have hd2 := rootDist_eq_depth hf hpn
  rcases hn : g.nodes.length with _ | m
  · omega
  · rw [hn] at hd hd2
    unfold rootDist at hd
    simp only [hp] at hd
    rcases hr : g.rootDist m p with _ | dp
    · rw [hr] at hd; simp at hd
    · rw [hr] at hd
      simp only [Option.map_some', Option.some_inj] at hd
      have hs : (g.rootDist m p).isSome := by simp [hr]
      have heq : g.rootDist (m + 1) p = some dp := by
        rw [rootDist_mono hs (Nat.le_succ m), hr]
      rw [heq] at hd2
      simp only [Option.some_inj] at hd2
      omega

end PGraph

/-! ## C2 — `World::global_transform` composition -/

theorem globalTransformF_ok (w : WorldM) (g : PGraph Nat) (hf : g.Forest)
    (htr : ∀ (j v : Nat), g.nodes[j]? = some v →
      ∃ row t, w.ecs.entryRef v = some row ∧ row.transform = some t) :
    ∀ d i, i < g.nodes.length → g.depth i = d →
      ∀ f, d < f →
        ∃ M, w.globalTransformF g f i = .ok M ∧
          w.globalTransformF g (g.nodes.length + 1) i = .ok M := by
  intro d
  induction d using Nat.strong_induction_on with
  | _ d ih =>
    intro i hi hdep f hfu
    rcases f with _ | f₀
    · omega
    obtain ⟨v, hv⟩ : ∃ v, g.nodes[i]? = some v := ⟨_, List.getElem?_eq_getElem hi⟩
    obtain ⟨row, t, hrow, ht⟩ := htr i v hv
    rcases hp : g.firstParent i with _ | p
    · exact ⟨t.matrix,
        by simp [WorldM.globalTransformF, hv, hrow, ht, hp],
        by simp [WorldM.globalTransformF, hv, hrow, ht, hp]⟩
    · obtain ⟨hpn, hdp⟩ := PGraph.depth_parent hf hi hp
      have hdn : g.depth i < g.nodes.length := PGraph.depth_lt hf hi
      obtain ⟨Mp, hMp_f, hMp_c⟩ := ih (g.depth p) (by omega) p hpn rfl f₀ (by omega)
      obtain ⟨Mp', hMp_n, hMp_c2⟩ :=
        ih (g.depth p) (by omega) p hpn rfl g.nodes.length (by omega)
      have hMM : Mp' = Mp := by
        rw [hMp_c] at hMp_c2
        exact (Except.ok.inj hMp_c2).symm
      rw [hMM] at hMp_n
      exact ⟨Mp * t.matrix,
        by simp [WorldM.globalTransformF, hv, hrow, ht, hp, hMp_f],
        by simp [WorldM.globalTransformF, hv, hrow, ht, hp, hMp_n]⟩

/-- C2: on a forest whose node entities all carry a `Transform`, the global
transform of a root equals the node's own local matrix, and the global
transform of a node with a parent is the parent's global transform times the
node's local matrix. -/
theorem C2_global_transform (w : WorldM) (g : PGraph Nat) (hf : g.Forest)
    (htr : ∀ (j v : Nat), g.nodes[j]? = some v →
      ∃ row t, w.ecs.entryRef v = some row ∧ row.transform = some t)
    (i : Nat) (hi : i < g.nodes.length) :
    (g.firstParent i = none →
      ∃ v row t, g.nodes[i]? = some v ∧ w.ecs.entryRef v = some row ∧
        row.transform = some t ∧ w.globalTransform g i = .ok t.matrix) ∧
    (∀ p, g.firstParent i = some p →
      ∃ Mp v row t, w.globalTransform g p = .ok Mp ∧
        g.nodes[i]? = some v ∧ w.ecs.entryRef v = some row ∧ row.transform = some t ∧
        w.globalTransform g i = .ok (Mp * t.matrix)) := by
  obtain ⟨v, hv⟩ : ∃ v, g.nodes[i]? = some v := ⟨_, List.getElem?_eq_getElem hi⟩
  obtain ⟨row, t, hrow, ht⟩ := htr i v hv
  constructor
  · intro hp
    exact ⟨v, row, t, hv, hrow, ht,
      by simp [WorldM.globalTransform, WorldM.globalTransformF, hv, hrow, ht, hp]⟩
  · intro p hp
    obtain ⟨hpn, hdp⟩ := PGraph.depth_parent hf hi hp
    have hdn : g.depth i < g.nodes.length := PGraph.depth_lt hf hi
    obtain ⟨Mp, hMp_n, hMp_c⟩ :=
      globalTransformF_ok w g hf htr (g.depth p) p hpn rfl g.nodes.length (by omega)
    refine ⟨Mp, v, row, t, hMp_c, hv, hrow, ht, ?_⟩
    simp [WorldM.globalTransform, WorldM.globalTransformF, hv, hrow, ht, hp, hMp_n]

/-- A two-node chain 0 → 1 whose payload entities 10 and 11 both carry a
`Transform`. -/
def c2Graph : PGraph Nat := ⟨[10, 11], [(0, 1)]⟩

/-- The world holding the entities of `c2Graph`. -/
def c2World : WorldM :=
  { ecs := ⟨[(10, { transform := some ⟨⟨1, 0, 0⟩, ⟨0, 0, 0, 1⟩, ⟨1, 1, 1⟩⟩ }),
             (11, { transform := some ⟨⟨0, 2, 0⟩, ⟨0, 0, 0, 1⟩, ⟨2, 2, 2⟩⟩ })], 12⟩
    physics := ⟨[]⟩
    scene := SceneC.defaultS }

theorem C2_global_transform_witness :
    (∃ v row t, c2Graph.nodes[0]? = some v ∧ c2World.ecs.entryRef v = some row ∧
      row.transform = some t ∧ c2World.globalTransform c2Graph 0 = .ok t.matrix) ∧
    (∃ Mp v row t, c2World.globalTransform c2Graph 0 = .ok Mp ∧
      c2Graph.nodes[1]? = some v ∧ c2World.ecs.entryRef v = some row ∧
      row.transform = some t ∧
      c2World.globalTransform c2Graph 1 = .ok (Mp * t.matrix)) := by
  have htr : ∀ (j v : Nat), c2Graph.nodes[j]? = some v →
      ∃ row t, c2World.ecs.entryRef v = some row ∧ row.transform = some t := by
    intro j v h
    match j, h with
    | 0, h =>
      have hv : v = 10 := by simpa [c2Graph] using h.symm
      subst hv
      exact ⟨_, _, rfl, rfl⟩
    | 1, h =>
      have hv : v = 11 := by simpa [c2Graph] using h.symm
      subst hv
      exact ⟨_, _, rfl, rfl⟩
    | n + 2, h => simp [c2Graph] at h
  have hf : c2Graph.Forest := by
    unfold PGraph.Forest PGraph.EdgesWF PGraph.AtMostOneParent PGraph.Acyclic
    refine ⟨by decide, by decide, by decide⟩
  exact ⟨(C2_global_transform c2World c2Graph hf htr 0 (by decide)).1 rfl,
         (C2_global_transform c2World c2Graph hf htr 1 (by decide)).2 0 rfl⟩

/-! ## C4 — subtree and traversal lemmas -/

theorem sublist_flatMap_of_mem {γ : Type} (f : γ → List Nat) {l : List γ} {x : γ}
    (h : x ∈ l) : List.Sublist (f x) (l.flatMap f) := by
  induction l with
  | nil => cases h
  | cons hd tl ih =>
    rw [List.flatMap_cons]
    rcases List.mem_cons.mp h with h | h
    · subst h; exact List.sublist_append_left _ _
    · exact (ih h).trans (List.sublist_append_right _ _)

namespace PGraph

variable {α : Type}

theorem mem_childrenEO {g : PGraph α} {i c : Nat} :
    c ∈ g.childrenEO i ↔ (i, c) ∈ g.edges := by
  unfold childrenEO
  constructor
  · intro h
    obtain ⟨e, hmem, hc⟩ := List.mem_map.mp h
    have hp := List.mem_filter.mp hmem
    have : e.1 = i := by simpa using hp.2
    have he : e = (i, c) := by
      rcases e with ⟨a, b⟩
      simp_all
    rw [he] at hp
    exact hp.1
  · intro h
    exact List.mem_map.mpr ⟨(i, c), List.mem_filter.mpr ⟨h, by simp⟩, rfl⟩

theorem singleton_of_len_le_one {γ : Type} {l : List γ} {x : γ}
    (hlen : l.length ≤ 1) (hx : x ∈ l) : l = [x] := by
  rcases l with _ | ⟨a, _ | ⟨b, tl⟩⟩
  · cases hx
  · rcases List.mem_singleton.mp hx with h
    rw [h]
  · simp at hlen

theorem parent_unique {g : PGraph α} (hf : g.Forest) {p i : Nat}
    (h : (p, i) ∈ g.edges) : g.firstParent i = some p := by
  have hin : i < g.nodes.length := (hf.1 _ h).2
  have hle := hf.2.1 i hin
  have hmem : (p, i) ∈ g.edges.filter (fun e => e.2 == i) :=
    List.mem_filter.mpr ⟨h, by simp⟩
  have hsing := singleton_of_len_le_one hle hmem
  unfold firstParent incomingSources
  rw [List.filter_reverse, hsing]
  rfl

theorem depth_childrenEO {g : PGraph α} (hf : g.Forest) {i c : Nat}
    (hc : c ∈ g.childrenEO i) : c < g.nodes.length ∧ g.depth c = g.depth i + 1 := by
  have hedge := mem_childrenEO.mp hc
  have hcn : c < g.nodes.length := (hf.1 _ hedge).2
  have hp := parent_unique hf hedge
  obtain ⟨_, hd⟩ := depth_parent hf hcn hp
  exact ⟨hcn, hd⟩

theorem childrenEO_nodup {g : PGraph α} (hf : g.Forest) (i : Nat) :
    (g.childrenEO i).Nodup := by
  rw [List.nodup_iff_count_le_one]
  intro c
  by_cases hcn : c < g.nodes.length
  · have hle := hf.2.1 c hcn
    calc (g.childrenEO i).count c
        = (g.edges.filter (fun e => e.1 == i)).countP (fun e => e.2 == c) := by
          unfold childrenEO
          rw [List.count_eq_countP, List.countP_map]
          rfl
      _ ≤ g.edges.countP (fun e => e.2 == c) := by
          rw [List.countP_eq_length_filter, List.countP_eq_length_filter]
          exact ((List.filter_sublist _).filter _).length_le
      _ ≤ 1 := by rw [List.countP_eq_length_filter]; exact hle
  · by_contra hcount
    push_neg at hcount
    have hmem : c ∈ g.childrenEO i := by
      by_contra hnm
      rw [List.count_eq_zero_of_not_mem hnm] at hcount
      omega
    exact hcn (depth_childrenEO hf hmem).1

end PGraph

namespace PGraph

variable {α : Type}

theorem preo_fuel {g : PGraph α} (hf : g.Forest) :
    ∀ k i, i < g.nodes.length → g.nodes.length - g.depth i ≤ k →
      ∀ f₁ f₂, g.nodes.length - g.depth i ≤ f₁ → g.nodes.length - g.depth i ≤ f₂ →
        g.preo f₁ i = g.preo f₂ i := by
  intro k
  induction k with
  | zero =>
    intro i hi hk
    have := depth_lt hf hi
    omega
  | succ k ih =>
    intro i hi hk f₁ f₂ h₁ h₂
    have hdl := depth_lt hf hi
    rcases f₁ with _ | f₁'
    · omega
    rcases f₂ with _ | f₂'
    · omega
    simp only [preo]
    congr 1
    rw [List.flatMap_def, List.flatMap_def]
    congr 1
    apply List.map_congr_left
    intro c hc
    obtain ⟨hcn, hcd⟩ := depth_childrenEO hf hc
    exact ih c hcn (by omega) f₁' f₂' (by omega) (by omega)

theorem subtree_eq {g : PGraph α} (hf : g.Forest) {i : Nat} (hi : i < g.nodes.length) :
    g.subtree i = i :: (g.childrenEO i).flatMap g.subtree := by
  have hdl := depth_lt hf hi
  rcases hn : g.nodes.length with _ | m
  · omega
  · show g.preo g.nodes.length i = i :: (g.childrenEO i).flatMap g.subtree
    rw [hn]
    simp only [preo]
    congr 1
    rw [List.flatMap_def, List.flatMap_def]
    congr 1
    apply List.map_congr_left
    intro c hc
    obtain ⟨hcn, hcd⟩ := depth_childrenEO hf hc
    show g.preo m c = g.preo g.nodes.length c
    exact preo_fuel hf (m + 1) c hcn (by omega) m g.nodes.length (by omega) (by omega)

theorem mem_subtree_self {g : PGraph α} (hf : g.Forest) {i : Nat}
    (hi : i < g.nodes.length) : i ∈ g.subtree i := by
  rw [subtree_eq hf hi]
  exact List.mem_cons_self _ _

theorem subtree_cases {g : PGraph α} (hf : g.Forest) {i x : Nat}
    (hi : i < g.nodes.length) (hx : x ∈ g.subtree i) :
    x = i ∨ ∃ c ∈ g.childrenEO i, x ∈ g.subtree c := by
  rw [subtree_eq hf hi] at hx
  rcases List.mem_cons.mp hx with h | h
  · exact Or.inl h
  · obtain ⟨c, hc, hxc⟩ := List.mem_flatMap.mp h
    exact Or.inr ⟨c, hc, hxc⟩

theorem parIter_add {g : PGraph α} (a b i : Nat) :
    g.parIter (a + b) i = (g.parIter a i).bind (g.parIter b) := by
  induction a generalizing i with
  | zero => simp [parIter]
  | succ a ih =>
    rw [show a + 1 + b = (a + b) + 1 from by omega]
    simp only [parIter]
    rcases hp : g.firstParent i with _ | p <;> simp only [hp]
    · simp
    · exact ih p

theorem mem_subtree_parIter {g : PGraph α} (hf : g.Forest) :
    ∀ k i, i < g.nodes.length → g.nodes.length - g.depth i ≤ k →
      ∀ x, x ∈ g.subtree i →
        ∃ j, g.parIter j x = some i ∧ g.depth x = g.depth i + j := by
  intro k
  induction k with
  | zero =>
    intro i hi hk
    have := depth_lt hf hi
    omega
  | succ k ih =>
    intro i hi hk x hx
    have hdl := depth_lt hf hi
    rcases subtree_cases hf hi hx with h | ⟨c, hc, hxc⟩
    · subst h
      exact ⟨0, rfl, by omega⟩
    · obtain ⟨hcn, hcd⟩ := depth_childrenEO hf hc
      obtain ⟨j, hpj, hdj⟩ := ih c hcn (by omega) x hxc
      refine ⟨j + 1, ?_, by omega⟩
      rw [parIter_add j 1 x, hpj]
      have hpar : g.firstParent c = some i := parent_unique hf (mem_childrenEO.mp hc)
      show g.parIter 1 c = some i
      simp [parIter, hpar]

theorem mem_subtree_lt {g : PGraph α} (hf : g.Forest) :
    ∀ k i, i < g.nodes.length → g.nodes.length - g.depth i ≤ k →
      ∀ x, x ∈ g.subtree i → x < g.nodes.length := by
  intro k
  induction k with
  | zero =>
    intro i hi hk
    have := depth_lt hf hi
    omega
  | succ k ih =>
    intro i hi hk x hx
    have hdl := depth_lt hf hi
    rcases subtree_cases hf hi hx with h | ⟨c, hc, hxc⟩
    · subst h; exact hi
    · obtain ⟨hcn, hcd⟩ := depth_childrenEO hf hc
      exact ih c hcn (by omega) x hxc

theorem subtree_lt {g : PGraph α} (hf : g.Forest) {i x : Nat}
    (hi : i < g.nodes.length) (hx : x ∈ g.subtree i) : x < g.nodes.length :=
  mem_subtree_lt hf g.nodes.length i hi (by omega) x hx

theorem subtree_parIter {g : PGraph α} (hf : g.Forest) {i x : Nat}
    (hi : i < g.nodes.length) (hx : x ∈ g.subtree i) :
    ∃ j, g.parIter j x = some i ∧ g.depth x = g.depth i + j :=
  mem_subtree_parIter hf g.nodes.length i hi (by omega) x hx

theorem subtree_disjoint {g : PGraph α} (hf : g.Forest) {a b : Nat}
    (ha : a < g.nodes.length) (hb : b < g.nodes.length)
    (hd : g.depth a = g.depth b) (hne : a ≠ b) :
    List.Disjoint (g.subtree a) (g.subtree b) := by
  intro x hxa hxb
  obtain ⟨j₁, hp₁, hd₁⟩ := subtree_parIter hf ha hxa
  obtain ⟨j₂, hp₂, hd₂⟩ := subtree_parIter hf hb hxb
  have hj : j₁ = j₂ := by omega
  subst hj
  rw [hp₁] at hp₂
  exact hne (Option.some_inj.mp hp₂)

theorem self_not_mem_child {g : PGraph α} (hf : g.Forest) {i c : Nat}
    (_hi : i < g.nodes.length) (hc : c ∈ g.childrenEO i) : i ∉ g.subtree c := by
  intro hmem
  obtain ⟨hcn, hcd⟩ := depth_childrenEO hf hc
  obtain ⟨j, hpj, hdj⟩ := subtree_parIter hf hcn hmem
  omega

theorem subtree_child_subset {g : PGraph α} (hf : g.Forest) {i c x : Nat}
    (hi : i < g.nodes.length) (hc : c ∈ g.childrenEO i) (hx : x ∈ g.subtree c) :
    x ∈ g.subtree i := by
  rw [subtree_eq hf hi]
  exact List.mem_cons_of_mem _ (List.mem_flatMap.mpr ⟨c, hc, hx⟩)

theorem subtree_nodup {g : PGraph α} (hf : g.Forest) :
    ∀ k i, i < g.nodes.length → g.nodes.length - g.depth i ≤ k →
      (g.subtree i).Nodup := by
  intro k
  induction k with
  | zero =>
    intro i hi hk
    have := depth_lt hf hi
    omega
  | succ k ih =>
    intro i hi hk
    have hdl := depth_lt hf hi
    rw [subtree_eq hf hi]
    rw [List.nodup_cons]
    constructor
    · intro hmem
      obtain ⟨c, hc, hxc⟩ := List.mem_flatMap.mp hmem
      exact self_not_mem_child hf hi hc hxc
    · rw [List.flatMap_def]
      rw [List.nodup_flatten]
      constructor
      · intro l hl
        obtain ⟨c, hc, hlc⟩ := List.mem_map.mp hl
        obtain ⟨hcn, hcd⟩ := depth_childrenEO hf hc
        rw [← hlc]
        exact ih c hcn (by omega)
      · rw [List.pairwise_map]
        refine List.Pairwise.imp_of_mem ?_ (childrenEO_nodup hf i)
        intro a b ha hb hne
        obtain ⟨han, had⟩ := depth_childrenEO hf ha
        obtain ⟨hbn, hbd⟩ := depth_childrenEO hf hb
        exact subtree_disjoint hf han hbn (by omega) hne

theorem subtree_length_le {g : PGraph α} (hf : g.Forest) {i : Nat}
    (hi : i < g.nodes.length) : (g.subtree i).length ≤ g.nodes.length := by
  classical
  have hnd : (g.subtree i).Nodup := subtree_nodup hf g.nodes.length i hi (by omega)
  calc (g.subtree i).length = (g.subtree i).toFinset.card :=
        (List.toFinset_card_of_nodup hnd).symm
    _ ≤ (Finset.range g.nodes.length).card := Finset.card_le_card (by
        intro x hx
        simp only [List.mem_toFinset] at hx
        exact Finset.mem_range.mpr (subtree_lt hf hi hx))
    _ = g.nodes.length := Finset.card_range _

end PGraph

namespace PGraph

variable {α : Type}

theorem depth_of_root {g : PGraph α} {r : Nat} (h : g.firstParent r = none) :
    g.depth r = 0 := by
  unfold depth
  rcases hn : g.nodes.length with _ | m
  · simp [rootDist]
  · simp [rootDist, h]

theorem rootDist_chase {g : PGraph α} (hwf : g.EdgesWF) :
    ∀ f i, i < g.nodes.length → ∀ d, g.rootDist f i = some d →
      ∃ r, g.parIter d i = some r ∧ g.firstParent r = none ∧ r < g.nodes.length := by
  intro f
  induction f with
  | zero => intro i _ d h; simp [rootDist] at h
  | succ f ih =>
    intro i hi d h
    unfold rootDist at h
    rcases hp : g.firstParent i with _ | p
    · simp only [hp, Option.some_inj] at h
      subst h
      exact ⟨i, rfl, hp, hi⟩
    · simp only [hp] at h
      rcases hr : g.rootDist f p with _ | d'
      · rw [hr] at h; simp at h
      · rw [hr] at h
        simp only [Option.map_some', Option.some_inj] at h
        subst h
        have hpn : p < g.nodes.length := (hwf _ (firstParent_mem hp)).1
        obtain ⟨r, hpar, hroot, hrn⟩ := ih p hpn d' hr
        refine ⟨r, ?_, hroot, hrn⟩
        simp only [parIter, hp]
        exact hpar

theorem child_mem_subtree {g : PGraph α} (hf : g.Forest) :
    ∀ k y, y < g.nodes.length → g.nodes.length - g.depth y ≤ k →
      ∀ p x, p ∈ g.subtree y → (p, x) ∈ g.edges → x ∈ g.subtree y := by
  intro k
  induction k with
  | zero =>
    intro y hy hk
    have := depth_lt hf hy
    omega
  | succ k ih =>
    intro y hy hk p x hp hedge
    have hdl := depth_lt hf hy
    have hxn : x < g.nodes.length := (hf.1 _ hedge).2
    rcases subtree_cases hf hy hp with h | ⟨c, hc, hpc⟩
    · subst h
      exact subtree_child_subset hf hy (mem_childrenEO.mpr hedge)
        (mem_subtree_self hf hxn)
    · obtain ⟨hcn, hcd⟩ := depth_childrenEO hf hc
      exact subtree_child_subset hf hy hc (ih c hcn (by omega) p x hpc hedge)

theorem parIter_lt {g : PGraph α} (hwf : g.EdgesWF) :
    ∀ j x y, x < g.nodes.length → g.parIter j x = some y → y < g.nodes.length := by
  intro j
  induction j with
  | zero =>
    intro x y hx h
    rw [← Option.some_inj.mp h]
    exact hx
  | succ j ih =>
    intro x y hx h
    simp only [parIter] at h
    rcases hp : g.firstParent x with _ | p
    · rw [hp] at h; simp at h
    · rw [hp] at h
      exact ih p y ((hwf _ (firstParent_mem hp)).1) h

theorem parIter_mem_subtree {g : PGraph α} (hf : g.Forest) :
    ∀ j x y, x < g.nodes.length → g.parIter j x = some y → x ∈ g.subtree y := by
  intro j
  induction j with
  | zero =>
    intro x y hx h
    have hxy : x = y := Option.some_inj.mp h
    subst hxy
    exact mem_subtree_self hf hx
  | succ j ih =>
    intro x y hx h
    simp only [parIter] at h
    rcases hp : g.firstParent x with _ | p
    · rw [hp] at h; simp at h
    · rw [hp] at h
      have hedge := firstParent_mem hp
      have hpn : p < g.nodes.length := (hf.1 _ hedge).1
      have hmem : p ∈ g.subtree y := ih p y hpn h
      have hyn : y < g.nodes.length := parIter_lt hf.1 j p y hpn h
      exact child_mem_subtree hf g.nodes.length y hyn (by omega) p x hmem hedge

end PGraph

namespace PGraph

variable {α : Type}

theorem outNeighbors_reverse (g : PGraph α) (i : Nat) :
    (g.outNeighbors i).reverse = g.childrenEO i := by
  unfold outNeighbors childrenEO
  rw [List.filter_reverse, ← List.map_reverse, List.reverse_reverse]

theorem mem_rootIndices {g : PGraph α} {r : Nat} :
    r ∈ g.rootIndices ↔ r < g.nodes.length ∧ g.firstParent r = none := by
  unfold rootIndices
  rw [List.mem_filter, List.mem_range]
  apply and_congr_right
  intro _
  unfold hasParents
  rcases ho : g.firstParent r with _ | p <;> simp [ho]

theorem rootIndices_nodup (g : PGraph α) : g.rootIndices.Nodup :=
  (List.nodup_range _).filter _

theorem dfsRun_eq_flatMap {g : PGraph α} (hf : g.Forest) :
    ∀ fuel (stack disc : List Nat),
      (∀ s ∈ stack, s < g.nodes.length) →
      stack.Pairwise (fun a b => List.Disjoint (g.subtree a) (g.subtree b)) →
      (∀ s ∈ stack, ∀ x ∈ g.subtree s, x ∉ disc) →
      (stack.map (fun s => (g.subtree s).length)).sum ≤ fuel →
      dfsRun g fuel stack disc = stack.flatMap g.subtree := by
  intro fuel
  induction fuel with
  | zero =>
    intro stack disc h1 h2 h3 h4
    rcases stack with _ | ⟨s, rest⟩
    · rfl
    · exfalso
      have hs := h1 s (List.mem_cons_self _ _)
      have hpos : 1 ≤ (g.subtree s).length := by
        rw [subtree_eq hf hs]
        simp
    
      simp only [List.map_cons, List.sum_cons] at h4
      omega
  | succ fuel ih =>
    intro stack disc h1 h2 h3 h4
    rcases stack with _ | ⟨s, rest⟩
    · rfl
    · have hs := h1 s (List.mem_cons_self _ _)
      have hsmem : s ∈ g.subtree s := mem_subtree_self hf hs
      have hnd : s ∉ disc := h3 s (List.mem_cons_self _ _) s hsmem
      have hcont : disc.contains s = false := by simpa using hnd
      have hchsub : ∀ c ∈ g.childrenEO s, c ∈ g.subtree s := fun c hc =>
        subtree_child_subset hf hs hc (mem_subtree_self hf (depth_childrenEO hf hc).1)
      have hch : ((g.outNeighbors s).filter (fun m => !(disc.contains m))).reverse
          = g.childrenEO s := by
        rw [← List.filter_reverse, outNeighbors_reverse]
        apply List.filter_eq_self.mpr
        intro c hc
        have hcd : c ∉ disc := h3 s (List.mem_cons_self _ _) c (hchsub c hc)
        simpa using hcd
      have step : dfsRun g (fuel + 1) (s :: rest) disc =
          s :: dfsRun g fuel (g.childrenEO s ++ rest) (s :: disc) := by
        simp only [dfsRun, hcont]
        rw [hch]
        simp
      rw [step]
      have h1' : ∀ t ∈ g.childrenEO s ++ rest, t < g.nodes.length := by
        intro t ht
        rcases List.mem_append.mp ht with h | h
        · exact (depth_childrenEO hf h).1
        · exact h1 t (List.mem_cons_of_mem _ h)
      have h2' : (g.childrenEO s ++ rest).Pairwise
          (fun a b => List.Disjoint (g.subtree a) (g.subtree b)) := by
        rw [List.pairwise_append]
        refine ⟨?_, (List.pairwise_cons.mp h2).2, ?_⟩
        · refine List.Pairwise.imp_of_mem ?_ (childrenEO_nodup hf s)
          intro a b ha hb hne
          obtain ⟨han, had⟩ := depth_childrenEO hf ha
          obtain ⟨hbn, hbd⟩ := depth_childrenEO hf hb
          exact subtree_disjoint hf han hbn (by omega) hne
        · intro a ha b hb
          intro x hxa hxb
          exact (List.pairwise_cons.mp h2).1 b hb
            (subtree_child_subset hf hs ha hxa) hxb
      have h3' : ∀ t ∈ g.childrenEO s ++ rest, ∀ x ∈ g.subtree t, x ∉ s :: disc := by
        intro t ht x hx
        rcases List.mem_append.mp ht with h | h
        · have hxs : x ∈ g.subtree s := subtree_child_subset hf hs h hx
          intro hmem
          rcases List.mem_cons.mp hmem with hxeq | hxd
          · subst hxeq
            exact self_not_mem_child hf hs h hx
          · exact h3 s (List.mem_cons_self _ _) x hxs hxd
        · intro hmem
          rcases List.mem_cons.mp hmem with hxeq | hxd
          · subst hxeq
            exact (List.pairwise_cons.mp h2).1 t h hsmem hx
          · exact h3 t (List.mem_cons_of_mem _ h) x hx hxd
      have hlen : (g.subtree s).length
          = 1 + ((g.childrenEO s).map (fun c => (g.subtree c).length)).sum := by
        rw [subtree_eq hf hs, List.length_cons, List.length_flatMap]
        simp only [Function.comp_def]
        omega

      have h4' : ((g.childrenEO s ++ rest).map (fun t => (g.subtree t).length)).sum
          ≤ fuel := by
        simp only [List.map_cons, List.sum_cons] at h4
        rw [List.map_append, List.sum_append]
        omega
      rw [ih (g.childrenEO s ++ rest) (s :: disc) h1' h2' h3' h4']
      rw [List.flatMap_cons, List.flatMap_append, subtree_eq hf hs]
      rfl


end PGraph

namespace PGraph

variable {α : Type}

theorem walkOrder_eq {g : PGraph α} (hf : g.Forest) :
    g.walkOrder = g.rootIndices.flatMap g.subtree := by
  unfold walkOrder
  rw [List.flatMap_def, List.flatMap_def]
  congr 1
  apply List.map_congr_left
  intro r hr
  obtain ⟨hrn, _⟩ := mem_rootIndices.mp hr
  have h1 : ∀ s ∈ [r], s < g.nodes.length := by
    intro s hs
    rw [List.mem_singleton] at hs
    subst hs
    exact hrn
  have h2 : List.Pairwise (fun a b => List.Disjoint (g.subtree a) (g.subtree b)) [r] := by
    simp
  have h3 : ∀ s ∈ [r], ∀ x ∈ g.subtree s, x ∉ ([] : List Nat) := by
    simp
  have h4 : (([r]).map (fun s => (g.subtree s).length)).sum ≤ g.dfsFuel := by
    simp only [List.map_cons, List.map_nil, List.sum_cons, List.sum_nil]
    have := subtree_length_le hf hrn
    unfold dfsFuel
    omega
  rw [dfsRun_eq_flatMap hf g.dfsFuel [r] [] h1 h2 h3 h4]
  simp

theorem walkOrder_mem {g : PGraph α} (hf : g.Forest) {x : Nat} :
    x ∈ g.walkOrder ↔ x < g.nodes.length := by
  rw [walkOrder_eq hf]
  constructor
  · intro h
    obtain ⟨r, hr, hxr⟩ := List.mem_flatMap.mp h
    exact subtree_lt hf (mem_rootIndices.mp hr).1 hxr
  · intro hx
    have hd := rootDist_eq_depth hf hx
    obtain ⟨r, hpar, hroot, hrn⟩ := rootDist_chase hf.1 g.nodes.length x hx _ hd
    exact List.mem_flatMap.mpr ⟨r, mem_rootIndices.mpr ⟨hrn, hroot⟩,
      parIter_mem_subtree hf _ x r hx hpar⟩

theorem walkOrder_nodup {g : PGraph α} (hf : g.Forest) : g.walkOrder.Nodup := by
  rw [walkOrder_eq hf, List.flatMap_def, List.nodup_flatten]
  constructor
  · intro l hl
    obtain ⟨r, hr, hlr⟩ := List.mem_map.mp hl
    rw [← hlr]
    exact subtree_nodup hf g.nodes.length r (mem_rootIndices.mp hr).1 (by omega)
  · rw [List.pairwise_map]
    refine List.Pairwise.imp_of_mem ?_ (rootIndices_nodup g)
    intro a b ha hb hne
    obtain ⟨han, haroot⟩ := mem_rootIndices.mp ha
    obtain ⟨hbn, hbroot⟩ := mem_rootIndices.mp hb
    exact subtree_disjoint hf han hbn
      (by rw [depth_of_root haroot, depth_of_root hbroot]) hne

theorem walkOrder_perm {g : PGraph α} (hf : g.Forest) :
    g.walkOrder.Perm (List.range g.nodes.length) := by
  rw [List.perm_ext_iff_of_nodup (walkOrder_nodup hf) (List.nodup_range _)]
  intro a
  rw [walkOrder_mem hf, List.mem_range]

theorem edge_before_subtree {g : PGraph α} (hf : g.Forest) :
    ∀ k r, r < g.nodes.length → g.nodes.length - g.depth r ≤ k →
      ∀ p c, (p, c) ∈ g.edges → p ∈ g.subtree r →
        List.Sublist [p, c] (g.subtree r) := by
  intro k
  induction k with
  | zero =>
    intro r hr hk
    have := depth_lt hf hr
    omega
  | succ k ih =>
    intro r hr hk p c hedge hp
    have hdl := depth_lt hf hr
    have hcn : c < g.nodes.length := (hf.1 _ hedge).2
    rcases subtree_cases hf hr hp with h | ⟨c', hc', hpc'⟩
    · subst h
      rw [subtree_eq hf hr]
      refine List.Sublist.cons₂ p ?_
      rw [List.singleton_sublist]
      exact List.mem_flatMap.mpr
        ⟨c, mem_childrenEO.mpr hedge, mem_subtree_self hf hcn⟩
    · obtain ⟨hc'n, hc'd⟩ := depth_childrenEO hf hc'
      have hsub := ih c' hc'n (by omega) p c hedge hpc'
      refine hsub.trans ?_
      rw [subtree_eq hf hr]
      exact (sublist_flatMap_of_mem g.subtree hc').trans (List.sublist_cons_self _ _)

theorem walkOrder_edge_before {g : PGraph α} (hf : g.Forest) {p c : Nat}
    (hedge : (p, c) ∈ g.edges) : VisitedBefore p c g.walkOrder := by
  unfold VisitedBefore
  have hpn : p < g.nodes.length := (hf.1 _ hedge).1
  have hd := rootDist_eq_depth hf hpn
  obtain ⟨r, hpar, hroot, hrn⟩ := rootDist_chase hf.1 g.nodes.length p hpn _ hd
  have hpr : p ∈ g.subtree r := parIter_mem_subtree hf _ p r hpn hpar
  have h1 : List.Sublist [p, c] (g.subtree r) :=
    edge_before_subtree hf g.nodes.length r hrn (by omega) p c hedge hpr
  refine h1.trans ?_
  rw [walkOrder_eq hf]
  exact sublist_flatMap_of_mem g.subtree (mem_rootIndices.mpr ⟨hrn, hroot⟩)

end PGraph

namespace PGraph

variable {α : Type} {σ ε : Type}

theorem dfsRunS_eq (g : PGraph α) (f : σ → Nat → σ × Except ε Unit) :
    ∀ fuel stack disc s,
      dfsRunS g f fuel stack disc s = applyVisits f s (dfsRun g fuel stack disc) := by
  intro fuel
  induction fuel with
  | zero => intro stack disc s; rfl
  | succ fuel ih =>
    intro stack disc s
    rcases stack with _ | ⟨n, rest⟩
    · rfl
    · cases hcb : disc.contains n
      · simp only [dfsRunS, dfsRun, hcb, Bool.false_eq_true, if_false]
        rcases hfs : f s n with ⟨s', r⟩
        rcases r with e | u
        · simp only [applyVisits, hfs]
        · simp only [applyVisits, hfs]
          exact ih _ _ s'
      · simp only [dfsRunS, dfsRun, hcb, if_true]
        exact ih rest disc s

theorem applyVisits_append (f : σ → Nat → σ × Except ε Unit) :
    ∀ l₁ l₂ s, applyVisits f s (l₁ ++ l₂) =
      (match applyVisits f s l₁ with
       | (s', .error e) => (s', .error e)
       | (s', .ok _) => applyVisits f s' l₂) := by
  intro l₁
  induction l₁ with
  | nil => intro l₂ s; rfl
  | cons n rest ih =>
    intro l₂ s
    show applyVisits f s (n :: (rest ++ l₂)) = _
    simp only [applyVisits]
    rcases hfs : f s n with ⟨s', r⟩
    rcases r with e | u
    · rfl
    · exact ih l₂ s'

theorem walkSAux_eq (g : PGraph α) (f : σ → Nat → σ × Except ε Unit) :
    ∀ rs s,
      walkSAux g f rs s =
        ((applyVisits f s (rs.flatMap (fun r => dfsRun g g.dfsFuel [r] []))).1,
         wrapSG (applyVisits f s (rs.flatMap (fun r => dfsRun g g.dfsFuel [r] []))).2) := by
  intro rs
  induction rs with
  | nil => intro s; rfl
  | cons r rest ih =>
    intro s
    rw [List.flatMap_cons, applyVisits_append]
    show (match dfsRunS g f g.dfsFuel [r] [] s with
      | (s', Except.error e) => (s', Except.error (SGErr.walkSceneGraph e))
      | (s', Except.ok _) => walkSAux g f rest s') = _
    rw [dfsRunS_eq]
    rcases h : applyVisits f s (dfsRun g g.dfsFuel [r] []) with ⟨s', r'⟩
    rcases r' with e | u
    · rfl
    · exact ih s'

theorem walkS_eq (g : PGraph α) (f : σ → Nat → σ × Except ε Unit) (s : σ) :
    walkS g f s =
      ((applyVisits f s g.walkOrder).1, wrapSG (applyVisits f s g.walkOrder).2) := by
  unfold walkS walkOrder
  exact walkSAux_eq g f g.rootIndices s

end PGraph

/-- C4: on a forest, `SceneGraph::walk` visits exactly the nodes of the graph,
each exactly once (the visit sequence is a permutation of all node indices); a
parent is always visited before each of its children (depth-first pre-order
from every root); and for every stateful visitor, `walk` behaves exactly like
folding the visitor over the visit sequence, stopping at the first visitor
error, which it returns wrapped (fail-fast).  On the repository's two-node
fixture (values 4 and 12, edge 0 → 1) the visit order is node 0 (value 4)
before node 1 (value 12). -/
theorem C4_walk {α : Type} (g : PGraph α) (hf : g.Forest) :
    g.walkOrder.Perm (List.range g.nodes.length) ∧
    (∀ e ∈ g.edges, VisitedBefore e.1 e.2 g.walkOrder) ∧
    (∀ (σ ε : Type) (f : σ → Nat → σ × Except ε Unit) (s : σ),
      PGraph.walkS g f s =
        ((PGraph.applyVisits f s g.walkOrder).1,
         PGraph.wrapSG (PGraph.applyVisits f s g.walkOrder).2)) ∧
    (exampleSceneGraph.walkOrder = [0, 1] ∧ exampleSceneGraph.nodes = [4, 12]) := by
  refine ⟨PGraph.walkOrder_perm hf, ?_, ?_, by decide, by decide⟩
  · intro e he
    exact PGraph.walkOrder_edge_before hf he
  · intro σ ε f s
    exact PGraph.walkS_eq g f s

theorem C4_walk_witness :
    exampleSceneGraph.walkOrder.Perm (List.range 2) ∧
    VisitedBefore 0 1 exampleSceneGraph.walkOrder ∧
    exampleSceneGraph.walkOrder = [0, 1] := by
  have hf : exampleSceneGraph.Forest := by
    unfold PGraph.Forest PGraph.EdgesWF PGraph.AtMostOneParent PGraph.Acyclic
    exact ⟨by decide, by decide, by decide⟩
  have h := C4_walk exampleSceneGraph hf
  exact ⟨h.1, h.2.1 (0, 1) (by decide), h.2.2.2.1⟩

/-! ## C8 — `World::entity_global_transform_matrix` -/

theorem egtm_skip_visits (w : WorldM) (g : PGraph Nat) (e : Nat) :
    ∀ (l : List Nat) (st : Mat4 × Bool),
      (∀ i ∈ l, ∃ v, g.nodes[i]? = some v ∧ v ≠ e) →
      PGraph.applyVisits (w.egtmAction g e) st l = (st, .ok ()) := by
  intro l
  induction l with
  | nil => intro st _; rfl
  | cons i rest ih =>
    intro st hl
    obtain ⟨v, hv, hne⟩ := hl i (List.mem_cons_self _ _)
    have hact : w.egtmAction g e st i = (st, .ok ()) := by
      simp [WorldM.egtmAction, hv, hne]
    simp only [PGraph.applyVisits, hact]
    exact ih st (fun j hj => hl j (List.mem_cons_of_mem _ hj))

theorem egtm_walk_skip (w : WorldM) (g : PGraph Nat) (e : Nat) (hf : g.Forest)
    (hne : e ∉ g.nodes) (st : Mat4 × Bool) :
    PGraph.walkS g (w.egtmAction g e) st = (st, .ok ()) := by
  rw [PGraph.walkS_eq]
  rw [egtm_skip_visits w g e g.walkOrder st ?skip]
  case skip =>
    intro i hi
    have hin : i < g.nodes.length := (PGraph.walkOrder_mem hf).mp hi
    refine ⟨g.nodes[i], List.getElem?_eq_getElem hin, ?_⟩
    intro hveq
    exact hne (hveq ▸ List.getElem_mem hin)
  rfl

theorem egtm_walk_found (w : WorldM) (g : PGraph Nat) (e : Nat) (hf : g.Forest)
    (i₀ : Nat) (hi₀ : g.nodes[i₀]? = some e)
    (hocc : ∀ i j : Nat, g.nodes[i]? = some e → g.nodes[j]? = some e → i = j)
    (st : Mat4 × Bool) :
    PGraph.walkS g (w.egtmAction g e) st =
      (match w.globalTransform g i₀ with
       | .ok m => ((m, true), .ok ())
       | .error er => (st, .error (.walkSceneGraph er))) := by
  have hi₀n : i₀ < g.nodes.length := (List.getElem?_eq_some.mp hi₀).1
  have hi₀w : i₀ ∈ g.walkOrder := (PGraph.walkOrder_mem hf).mpr hi₀n
  obtain ⟨l₁, l₂, hsplit⟩ := List.append_of_mem hi₀w
  have hnd : g.walkOrder.Nodup := PGraph.walkOrder_nodup hf
  rw [hsplit] at hnd
  obtain ⟨hnd₁, hnd₂, hdisj⟩ := List.nodup_append.mp hnd
  have hi₀l₁ : i₀ ∉ l₁ := fun h => hdisj h (List.mem_cons_self _ _)
  have hi₀l₂ : i₀ ∉ l₂ := (List.nodup_cons.mp hnd₂).1
  have hskip : ∀ j, j ∈ l₁ ∨ j ∈ l₂ → ∃ v, g.nodes[j]? = some v ∧ v ≠ e := by
    intro j hj
    have hjw : j ∈ g.walkOrder := by
      rw [hsplit]
      rcases hj with h | h
      · exact List.mem_append_left _ h
      · exact List.mem_append_right _ (List.mem_cons_of_mem _ h)
    have hjn : j < g.nodes.length := (PGraph.walkOrder_mem hf).mp hjw
    refine ⟨g.nodes[j], List.getElem?_eq_getElem hjn, ?_⟩
    intro hveq
    have hje : g.nodes[j]? = some e := by
      rw [List.getElem?_eq_getElem hjn, hveq]
    have hji : j = i₀ := hocc j i₀ hje hi₀
    subst hji
    rcases hj with h | h
    · exact hi₀l₁ h
    · exact hi₀l₂ h
  have hA : PGraph.applyVisits (w.egtmAction g e) st (l₁ ++ i₀ :: l₂) =
      (match w.globalTransform g i₀ with
       | .ok m => ((m, true), .ok ())
       | .error er => (st, .error er)) := by
    rw [PGraph.applyVisits_append,
      egtm_skip_visits w g e l₁ st (fun j hj => hskip j (Or.inl hj))]
    show PGraph.applyVisits (w.egtmAction g e) st (i₀ :: l₂) = _
    rcases hg : w.globalTransform g i₀ with er | m
    · have hact : w.egtmAction g e st i₀ = (st, .error er) := by
        simp [WorldM.egtmAction, hi₀, hg]
      simp only [PGraph.applyVisits, hact]
    · have hact : w.egtmAction g e st i₀ = ((m, true), .ok ()) := by
        simp [WorldM.egtmAction, hi₀, hg]
      simp only [PGraph.applyVisits, hact]
      exact egtm_skip_visits w g e l₂ (m, true) (fun j hj => hskip j (Or.inr hj))
  rw [PGraph.walkS_eq, hsplit, hA]
  rcases hg : w.globalTransform g i₀ with er | m <;> simp only []
  · rfl
  · rfl

theorem egtmLoop_skip (w : WorldM) (e : Nat) :
    ∀ gs (st : Mat4 × Bool), st.2 = false →
      (∀ g' ∈ gs, g'.Forest ∧ e ∉ g'.nodes) →
      w.egtmLoop e gs st = .ok st := by
  intro gs
  induction gs with
  | nil => intro st _ _; rfl
  | cons g rest ih =>
    intro st hst hall
    obtain ⟨hf, hne⟩ := hall g (List.mem_cons_self _ _)
    show (match PGraph.walkS g (w.egtmAction g e) st with
      | (_, Except.error (SGErr.walkSceneGraph er)) =>
        Except.error (WErr.walkEntitySceneGraph er)
      | (st', Except.ok _) =>
        if st'.2 then Except.ok st' else w.egtmLoop e rest st') = _
    rw [egtm_walk_skip w g e hf hne st]
    show (if st.2 then Except.ok st else w.egtmLoop e rest st) = _
    rw [hst]
    simp only [Bool.false_eq_true, if_false]
    exact ih st hst (fun g' h => hall g' (List.mem_cons_of_mem _ h))

theorem egtmLoop_append_skip (w : WorldM) (e : Nat) :
    ∀ gs₁ (rest : List (PGraph Nat)) (st : Mat4 × Bool), st.2 = false →
      (∀ g' ∈ gs₁, g'.Forest ∧ e ∉ g'.nodes) →
      w.egtmLoop e (gs₁ ++ rest) st = w.egtmLoop e rest st := by
  intro gs₁
  induction gs₁ with
  | nil => intro rest st _ _; rfl
  | cons g gs ih =>
    intro rest st hst hall
    obtain ⟨hf, hne⟩ := hall g (List.mem_cons_self _ _)
    show (match PGraph.walkS g (w.egtmAction g e) st with
      | (_, Except.error (SGErr.walkSceneGraph er)) =>
        Except.error (WErr.walkEntitySceneGraph er)
      | (st', Except.ok _) =>
        if st'.2 then Except.ok st' else w.egtmLoop e (gs ++ rest) st') = _
    rw [egtm_walk_skip w g e hf hne st]
    show (if st.2 then Except.ok st else w.egtmLoop e (gs ++ rest) st) = _
    rw [hst]
    simp only [Bool.false_eq_true, if_false]
    exact ih rest st hst (fun g' h => hall g' (List.mem_cons_of_mem _ h))

/-- C8 (amended): for an entity occurring at most once per graph, with every
graph a forest: when no graph contains the entity, the result is the entity's
own local `Transform` matrix lookup; when a graph contains it, the result is
the composed global transform of its node in the first such graph — which is
an error when composing along that node's ancestor chain fails, even though
the entity itself has a `Transform`.  The local lookup errs exactly when the
entity is dead or lacks a `Transform`. -/
theorem C8_entity_global_transform (w : WorldM) (e : Nat)
    (hfs : ∀ g ∈ w.scene.graphs, g.Forest)
    (hocc : ∀ g ∈ w.scene.graphs, ∀ i j : Nat,
      g.nodes[i]? = some e → g.nodes[j]? = some e → i = j) :
    ((∀ g ∈ w.scene.graphs, e ∉ g.nodes) →
      w.entityGlobalTransformMatrix e = w.localTransformMatrix e) ∧
    (∀ gs₁ g gs₂, w.scene.graphs = gs₁ ++ g :: gs₂ →
      (∀ g' ∈ gs₁, e ∉ g'.nodes) → ∀ i₀ : Nat, g.nodes[i₀]? = some e →
      w.entityGlobalTransformMatrix e =
        (match w.globalTransform g i₀ with
         | .ok m => .ok m
         | .error er => .error (.walkEntitySceneGraph er))) ∧
    (∀ row, w.ecs.entryRef e = some row →
      (row.transform = none → w.localTransformMatrix e = .error .getComponent) ∧
      (∀ t, row.transform = some t → w.localTransformMatrix e = .ok t.matrix)) ∧
    (w.ecs.entryRef e = none → w.localTransformMatrix e = .error .accessEntity) := by
  refine ⟨?_, ?_, ?_, ?_⟩
  · intro hnone
    show (match w.egtmLoop e w.scene.graphs (1, false) with
      | Except.error er => Except.error er
      | Except.ok st =>
        if st.2 then Except.ok st.1 else w.localTransformMatrix e) = _
    rw [egtmLoop_skip w e w.scene.graphs (1, false) rfl
      (fun g' h => ⟨hfs g' h, hnone g' h⟩)]
    rfl
  · intro gs₁ g gs₂ hsplit hskip i₀ hi₀
    have hgmem : g ∈ w.scene.graphs := by
      rw [hsplit]
      exact List.mem_append_right _ (List.mem_cons_self _ _)
    have hf := hfs g hgmem
    show (match w.egtmLoop e w.scene.graphs (1, false) with
      | Except.error er => Except.error er
      | Except.ok st =>
        if st.2 then Except.ok st.1 else w.localTransformMatrix e) = _
    rw [hsplit, egtmLoop_append_skip w e gs₁ (g :: gs₂) (1, false) rfl
      (fun g' h => ⟨hfs g' (by rw [hsplit]; exact List.mem_append_left _ h),
        hskip g' h⟩)]
    show (match
      (match PGraph.walkS g (w.egtmAction g e) (1, false) with
        | (_, Except.error (SGErr.walkSceneGraph er)) =>
          Except.error (WErr.walkEntitySceneGraph er)
        | (st', Except.ok _) =>
          if st'.2 then Except.ok st' else w.egtmLoop e gs₂ st') with
      | Except.error er => Except.error er
      | Except.ok st =>
        if st.2 then Except.ok st.1 else w.localTransformMatrix e) = _
    rw [egtm_walk_found w g e hf i₀ hi₀ (hocc g hgmem) (1, false)]
    rcases hg : w.globalTransform g i₀ with er | m
    · rfl
    · rfl
  · intro row hrow
    constructor
    · intro hnone
      simp [WorldM.localTransformMatrix, hrow, hnone]
    · intro t ht
      simp [WorldM.localTransformMatrix, hrow, ht]
  · intro hnone
    simp [WorldM.localTransformMatrix, hnone]

/-- Scene graph whose root entity 20 lacks a `Transform` while its child
entity 21 has one. -/
def c8Graph : PGraph Nat := ⟨[20, 21], [(0, 1)]⟩

/-- The world for the C8 counterexample. -/
def c8World : WorldM :=
  { ecs := ⟨[(20, { name := some "root" }),
             (21, { transform := some ⟨⟨1, 2, 3⟩, ⟨0, 0, 0, 1⟩, ⟨1, 1, 1⟩⟩ })], 22⟩
    physics := ⟨[]⟩
    scene := ⟨"S", [c8Graph], none⟩ }

/-- C8 counterexample: entity 21 is live and has a `Transform`, yet
`entity_global_transform_matrix` returns an error, because composing the
global transform walks through the parent entity 20, which lacks one.  The
claim says an error occurs iff the entity itself lacks a `Transform`. -/
theorem C8_ancestor_error_counterexample :
    (∃ row t, c8World.ecs.entryRef 21 = some row ∧ row.transform = some t) ∧
    c8World.entityGlobalTransformMatrix 21 =
      .error (.walkEntitySceneGraph .requestTransform) := by
  exact ⟨⟨_, _, rfl, rfl⟩, rfl⟩

/-- One-node graph holding entity 30. -/
def c8WitGraph : PGraph Nat := ⟨[30], []⟩

/-- Witness world: entity 30 sits in the only graph; entity 31 is live with a
`Transform` but placed in no graph. -/
def c8WitWorld : WorldM :=
  { ecs := ⟨[(30, { transform := some ⟨⟨1, 2, 3⟩, ⟨0, 0, 0, 1⟩, ⟨1, 1, 1⟩⟩ }),
             (31, { transform := some ⟨⟨4, 5, 6⟩, ⟨0, 0, 0, 1⟩, ⟨1, 1, 1⟩⟩ })], 32⟩
    physics := ⟨[]⟩
    scene := ⟨"S", [c8WitGraph], none⟩ }

theorem C8_entity_global_transform_witness :
    c8WitWorld.entityGlobalTransformMatrix 30 =
      (match c8WitWorld.globalTransform c8WitGraph 0 with
       | .ok m => .ok m
       | .error er => .error (.walkEntitySceneGraph er)) ∧
    c8WitWorld.entityGlobalTransformMatrix 31 =
      c8WitWorld.localTransformMatrix 31 := by
  have hfs : ∀ g ∈ c8WitWorld.scene.graphs, g.Forest := by
    intro g hg
    have hgw : g = c8WitGraph := List.mem_singleton.mp hg
    subst hgw
    unfold PGraph.Forest PGraph.EdgesWF PGraph.AtMostOneParent PGraph.Acyclic
    exact ⟨by decide, by decide, by decide⟩
  constructor
  · have hocc : ∀ g ∈ c8WitWorld.scene.graphs, ∀ i j : Nat,
        g.nodes[i]? = some 30 → g.nodes[j]? = some 30 → i = j := by
      intro g hg i j hi hj
      have hgw : g = c8WitGraph := List.mem_singleton.mp hg
      subst hgw
      have h1 : i < 1 := by simpa [c8WitGraph] using (List.getElem?_eq_some.mp hi).1
      have h2 : j < 1 := by simpa [c8WitGraph] using (List.getElem?_eq_some.mp hj).1
      omega
    exact (C8_entity_global_transform c8WitWorld 30 hfs hocc).2.1
      [] c8WitGraph [] rfl (by simp) 0 rfl
  · have hocc : ∀ g ∈ c8WitWorld.scene.graphs, ∀ i j : Nat,
        g.nodes[i]? = some 31 → g.nodes[j]? = some 31 → i = j := by
      intro g hg i j hi hj
      have hgw : g = c8WitGraph := List.mem_singleton.mp hg
      subst hgw
      have h1 : i < 1 := by simpa [c8WitGraph] using (List.getElem?_eq_some.mp hi).1
      have hz : i = 0 := by omega
      subst hz
      simp [c8WitGraph] at hi
    exact (C8_entity_global_transform c8WitWorld 31 hfs hocc).1 (by
      intro g hg
      have hgw : g = c8WitGraph := List.mem_singleton.mp hg
      subst hgw
      decide)

/-! ## C10 — `World::new` and `World::clear` populate default content -/

theorem initWorld_spec (rows0 : List (Nat × Row)) (N : Nat) (phys : WorldPhysics)
    (scn : SceneC) (h : rows0 = []) :
    WorldM.initWorld ⟨⟨rows0, N⟩, phys, scn⟩ =
      .ok ⟨⟨[(N, WorldM.defaultCameraRow), (N + 1, WorldM.defaultLightRow)], N + 2⟩,
           phys, ⟨"Main Scene", [⟨[N, N + 1], []⟩], none⟩⟩ := by
  subst h
  rfl

theorem initWorld_props (N : Nat) (phys : WorldPhysics) :
    ∃ camRow lightRow cam,
      Ecs.entryRef ⟨[(N, WorldM.defaultCameraRow), (N + 1, WorldM.defaultLightRow)], N + 2⟩ N
        = some camRow ∧
      camRow.camera = some cam ∧ cam.enabled = true ∧ cam.name = "Main Camera" ∧
      Ecs.entryRef ⟨[(N, WorldM.defaultCameraRow), (N + 1, WorldM.defaultLightRow)], N + 2⟩
        (N + 1) = some lightRow ∧
      lightRow.light.isSome = true ∧
      WorldM.activeCamera
        ⟨⟨[(N, WorldM.defaultCameraRow), (N + 1, WorldM.defaultLightRow)], N + 2⟩,
         phys, ⟨"Main Scene", [⟨[N, N + 1], []⟩], none⟩⟩ = .ok N := by
  have e2 : (N == N + 1) = false := by simp
  refine ⟨WorldM.defaultCameraRow, WorldM.defaultLightRow, _, ?_, rfl, rfl, rfl, ?_, rfl, ?_⟩
  · simp [Ecs.entryRef, List.find?]
  · simp [Ecs.entryRef, List.find?, e2]
  · simp [WorldM.activeCamera, List.find?, WorldM.defaultCameraRow]

/-- C10: a freshly constructed world is not empty — it holds an entity with an
enabled camera named `Main Camera` and an entity with a light, both inserted
as root nodes of the scene's single default graph, so `active_camera`
succeeds; `World::clear` rebuilds exactly this default content for any
starting world rather than leaving the world empty. -/
theorem C10_world_new_defaults :
    (∃ w camE lightE, WorldM.newW = .ok w ∧
      (∃ camRow, w.ecs.entryRef camE = some camRow ∧
        ∃ cam, camRow.camera = some cam ∧
          cam.enabled = true ∧ cam.name = WorldM.mainCameraName) ∧
      (∃ lightRow, w.ecs.entryRef lightE = some lightRow ∧
        lightRow.light.isSome = true) ∧
      w.scene.graphs = [⟨[camE, lightE], []⟩] ∧
      w.activeCamera = .ok camE) ∧
    (∀ w₀ : WorldM, ∃ w camE lightE, w₀.clear = .ok w ∧
      (∃ camRow, w.ecs.entryRef camE = some camRow ∧
        ∃ cam, camRow.camera = some cam ∧
          cam.enabled = true ∧ cam.name = WorldM.mainCameraName) ∧
      (∃ lightRow, w.ecs.entryRef lightE = some lightRow ∧
        lightRow.light.isSome = true) ∧
      w.scene.graphs = [⟨[camE, lightE], []⟩] ∧
      w.activeCamera = .ok camE) := by
  constructor
  · obtain ⟨camRow, lightRow, cam, h2, h3, h4, h5, h6, h7, h8⟩ :=
      initWorld_props 0 ⟨[]⟩
    exact ⟨_, 0, 1, initWorld_spec [] 0 ⟨[]⟩ SceneC.defaultS rfl,
      ⟨camRow, h2, cam, h3, h4, h5⟩, ⟨lightRow, h6, h7⟩, rfl, h8⟩
  · intro w₀
    obtain ⟨camRow, lightRow, cam, h2, h3, h4, h5, h6, h7, h8⟩ :=
      initWorld_props w₀.ecs.nextId w₀.physics
    exact ⟨_, w₀.ecs.nextId, w₀.ecs.nextId + 1,
      initWorld_spec [] w₀.ecs.nextId w₀.physics { w₀.scene with graphs := [] } rfl,
      ⟨camRow, h2, cam, h3, h4, h5⟩, ⟨lightRow, h6, h7⟩, rfl, h8⟩
/-! ## C9 — registry-driven serialization round trip -/

namespace Ser

variable {β : Type}

theorem lookup_eq_none_keys {κ γ : Type} [BEq κ] [LawfulBEq κ] {l : List (κ × γ)} {k : κ}
    (h : k ∉ l.map (·.1)) : l.lookup k = none := by
  induction l with
  | nil => rfl
  | cons p rest ih =>
    have hne : k ≠ p.1 := by
      intro he
      exact h (by rw [List.map_cons, he]; exact List.mem_cons_self _ _)
    have hb : (k == p.1) = false := beq_eq_false_iff_ne.mpr hne
    rcases p with ⟨k₀, v₀⟩
    simp only [List.lookup, hb]
    exact ih (fun hm => h (List.mem_cons_of_mem _ hm))

theorem lookup_map_self {κ γ : Type} [BEq κ] [LawfulBEq κ] (f : κ → γ) :
    ∀ (ks : List κ) (k : κ), k ∈ ks →
      ((ks.map (fun k => (k, f k))).lookup k) = some (f k) := by
  intro ks
  induction ks with
  | nil => intro k h; cases h
  | cons k₀ rest ih =>
    intro k hk
    by_cases he : k = k₀
    · subst he
      simp [List.lookup]
    · have hb : (k == k₀) = false := beq_eq_false_iff_ne.mpr he
      simp only [List.map_cons, List.lookup, hb]
      rcases List.mem_cons.mp hk with h | h
      · exact absurd h he
      · exact ih k h

theorem rowComps_lookup (comps : List (String × List (Nat × β))) (i : Nat) (k : String)
    (hnd : (comps.map (·.1)).Nodup) :
    ((comps.filterMap (fun kl => (kl.2.lookup i).map (fun v => (kl.1, v)))).lookup k)
      = (comps.lookup k).bind (fun t => t.lookup i) := by
  induction comps with
  | nil => rfl
  | cons kl rest ih =>
    rcases kl with ⟨k₀, tbl₀⟩
    have hnd' : (rest.map (·.1)).Nodup := (List.nodup_cons.mp hnd).2
    have hk₀ : k₀ ∉ rest.map (·.1) := (List.nodup_cons.mp hnd).1
    by_cases he : k = k₀
    · subst he
      rcases ht : tbl₀.lookup i with _ | v
      · simp only [List.filterMap_cons, ht, Option.map_none', List.lookup, beq_self_eq_true]
        rw [ih hnd']
        have : rest.lookup k = none := by
          apply lookup_eq_none_keys
          exact hk₀
        rw [this]
        simp [ht]
      · simp [List.filterMap_cons, ht, List.lookup]
    · have hb : (k == k₀) = false := beq_eq_false_iff_ne.mpr he
      rcases ht : tbl₀.lookup i with _ | v
      · simp only [List.filterMap_cons, ht, Option.map_none', List.lookup, hb]
        exact ih hnd'
      · simp only [List.filterMap_cons, ht, Option.map_some', List.lookup, hb]
        exact ih hnd'

theorem range'_filterMap_lookup :
    ∀ (len s : Nat) (T : List (Nat × β)),
      (T.map (·.1)).Pairwise (· < ·) →
      (∀ p ∈ T, s ≤ p.1 ∧ p.1 < s + len) →
      (List.range' s len).filterMap (fun i => (T.lookup i).map (fun v => (i, v))) = T := by
  intro len
  induction len with
  | zero =>
    intro s T _ hb
    rcases T with _ | ⟨p, T'⟩
    · rfl
    · exfalso
      have := hb p (List.mem_cons_self _ _)
      omega
  | succ len ih =>
    intro s T hsort hb
    rw [List.range'_succ s len 1]
    rcases T with _ | ⟨⟨i₀, v₀⟩, T'⟩
    · simp only [List.filterMap_cons, List.lookup, Option.map_none']
      exact ih (s + 1) [] (by simp) (by simp)
    · have hid₀ := hb ⟨i₀, v₀⟩ (List.mem_cons_self _ _)
      by_cases hi : i₀ = s
      · subst hi
        have hhead : ((⟨i₀, v₀⟩ :: T').lookup i₀ : Option β) = some v₀ := by
          simp [List.lookup]
        simp only [List.filterMap_cons, hhead, Option.map_some']
        congr 1
        have hT' : ∀ p ∈ T', i₀ < p.1 := by
          intro p hp
          have := (List.pairwise_cons.mp hsort).1 p.1 (List.mem_map_of_mem _ hp)
          exact this
        have hcong : (List.range' (i₀ + 1) len).filterMap
              (fun i => (((⟨i₀, v₀⟩ :: T').lookup i : Option β)).map (fun v => (i, v)))
            = (List.range' (i₀ + 1) len).filterMap
              (fun i => ((T'.lookup i).map (fun v => (i, v)))) := by
          apply List.filterMap_congr
          intro x hx
          have hxr := List.mem_range'_1.mp hx
          have hxne : (x == i₀) = false := beq_eq_false_iff_ne.mpr (by omega)
          simp [List.lookup, hxne]
        rw [hcong]
        apply ih (i₀ + 1) T' (List.pairwise_cons.mp hsort).2
        intro p hp
        have h1 := hT' p hp
        have h2 := hb p (List.mem_cons_of_mem _ hp)
        omega
      · have hs : s < i₀ := by omega
        have hskip : ((⟨i₀, v₀⟩ :: T').lookup s : Option β) = none := by
          apply lookup_eq_none_keys
          intro hmem
          rcases List.mem_cons.mp hmem with h | h
          · simp at h; omega
          · obtain ⟨p, hp, hps⟩ := List.mem_map.mp h
            have hlt : i₀ < p.1 :=
              (List.pairwise_cons.mp hsort).1 p.1 (List.mem_map_of_mem _ hp)
            omega
        simp only [List.filterMap_cons, hskip, Option.map_none']
        apply ih (s + 1) _ hsort
        intro p hp
        rcases List.mem_cons.mp hp with h | h
        · subst h
          have hb₀ : s ≤ i₀ ∧ i₀ < s + (len + 1) := hb ⟨i₀, v₀⟩ (List.mem_cons_self _ _)
          exact ⟨by show s + 1 ≤ i₀; omega, by show i₀ < s + 1 + len; omega⟩
        · have h1 := hb p (List.mem_cons_of_mem _ h)
          have h2 : i₀ < p.1 := by
            have := (List.pairwise_cons.mp hsort).1 p.1 (List.mem_map_of_mem _ h)
            exact this
          omega

theorem sublist_indexOf_pairwise :
    ∀ {sub l : List Nat}, List.Sublist sub l → l.Nodup →
      sub.Pairwise (fun a b => l.indexOf a < l.indexOf b) := by
  intro sub l hs
  induction hs with
  | slnil => intro _; exact List.Pairwise.nil
  | @cons sub' l' a hs ih =>
    intro hnd
    have hnd' : l'.Nodup := (List.nodup_cons.mp hnd).2
    have hna : a ∉ l' := (List.nodup_cons.mp hnd).1
    refine (ih hnd').imp_of_mem ?_
    intro x y hx hy hxy
    have hxl : x ∈ l' := hs.subset hx
    have hyl : y ∈ l' := hs.subset hy
    have hxa : x ≠ a := fun h => hna (h ▸ hxl)
    have hya : y ≠ a := fun h => hna (h ▸ hyl)
    rw [List.indexOf_cons_ne _ (fun h => hxa h.symm),
        List.indexOf_cons_ne _ (fun h => hya h.symm)]
    omega
  | @cons₂ sub' l' a hs ih =>
    intro hnd
    have hnd' : l'.Nodup := (List.nodup_cons.mp hnd).2
    have hna : a ∉ l' := (List.nodup_cons.mp hnd).1
    rw [List.pairwise_cons]
    constructor
    · intro b hb
      have hbl : b ∈ l' := hs.subset hb
      have hba : b ≠ a := fun h => hna (h ▸ hbl)
      rw [List.indexOf_cons_ne _ (fun h => hba h.symm)]
      simp [List.indexOf_cons_self]
    · refine (ih hnd').imp_of_mem ?_
      intro x y hx hy hxy
      have hxl : x ∈ l' := hs.subset hx
      have hyl : y ∈ l' := hs.subset hy
      have hxa : x ≠ a := fun h => hna (h ▸ hxl)
      have hya : y ≠ a := fun h => hna (h ▸ hyl)
      rw [List.indexOf_cons_ne _ (fun h => hxa h.symm),
          List.indexOf_cons_ne _ (fun h => hya h.symm)]
      omega

theorem componentsOf_ids_sublist (k : String) :
    ∀ rows : List (Nat × List (String × β)),
      List.Sublist
        ((rows.filterMap (fun er => (er.2.lookup k).map (fun v => (er.1, v)))).map (·.1))
        (rows.map (·.1)) := by
  intro rows
  induction rows with
  | nil => exact List.Sublist.refl _
  | cons er rest ih =>
    rcases hl : er.2.lookup k with _ | v
    · simp only [List.filterMap_cons, hl, Option.map_none', List.map_cons]
      exact ih.trans (List.sublist_cons_self _ _)
    · simp only [List.filterMap_cons, hl, Option.map_some', List.map_cons]
      exact List.Sublist.cons₂ _ ih

theorem serialize_comps_keys (reg : List String) (w : SWorld β) :
    ((serialize reg w).comps.map (·.1))
      = (usedKeys w).filter (fun k => reg.contains k) := by
  simp [serialize, List.map_map, Function.comp_def]

theorem serialize_comps_nodupKeys (reg : List String) (w : SWorld β) :
    ((serialize reg w).comps.map (·.1)).Nodup := by
  rw [serialize_comps_keys]
  exact (List.nodup_dedup _).filter _

theorem serialize_comps_lookup_mem (reg : List String) (w : SWorld β) (k : String)
    (hk : k ∈ (usedKeys w).filter (fun k => reg.contains k)) :
    (serialize reg w).comps.lookup k
      = some ((componentsOf w k).map (fun ev => (canonOf w ev.1, ev.2))) := by
  have h := lookup_map_self
    (fun k => (componentsOf w k).map (fun ev => (canonOf w ev.1, ev.2)))
    ((usedKeys w).filter (fun k => reg.contains k)) k hk
  exact h

theorem serialize_comps_lookup_none (reg : List String) (w : SWorld β) (k : String)
    (hk : k ∉ (usedKeys w).filter (fun k => reg.contains k)) :
    (serialize reg w).comps.lookup k = none := by
  apply lookup_eq_none_keys
  rw [serialize_comps_keys]
  exact hk

theorem componentsOf_not_used (w : SWorld β) (k : String) (hk : k ∉ usedKeys w) :
    componentsOf w k = [] := by
  unfold componentsOf
  rw [List.filterMap_eq_nil_iff]
  intro er her
  have hnone : er.2.lookup k = none := by
    apply lookup_eq_none_keys
    intro hkm
    exact hk (List.mem_dedup.mpr (List.mem_flatMap.mpr ⟨er, her, hkm⟩))
  rw [hnone]
  rfl

theorem componentsOf_deser (reg : List String) (w : SWorld β) (gs : List (PGraph Nat))
    (hnd : (w.rows.map (·.1)).Nodup)
    (hkeys : ∀ k ∈ usedKeys w, k ∈ reg) (k : String) :
    componentsOf (⟨(List.range w.rows.length).map (fun i =>
        (i, (serialize reg w).comps.filterMap (fun kl =>
          (kl.2.lookup i).map (fun v => (kl.1, v))))), gs⟩ : SWorld β) k
      = (componentsOf w k).map (fun ev => (canonOf w ev.1, ev.2)) := by
  have hrow : ∀ i : Nat, (((serialize reg w).comps.filterMap (fun kl =>
        (kl.2.lookup i).map (fun v => (kl.1, v)))).lookup k)
      = ((serialize reg w).comps.lookup k).bind (fun t => t.lookup i) := by
    intro i
    exact rowComps_lookup _ i k (serialize_comps_nodupKeys reg w)
  unfold componentsOf
  rw [List.filterMap_map]
  by_cases hk : k ∈ (usedKeys w).filter (fun k => reg.contains k)
  · have hlook := serialize_comps_lookup_mem reg w k hk
    have hsub : List.Sublist ((componentsOf w k).map (·.1)) (w.rows.map (·.1)) :=
      componentsOf_ids_sublist k w.rows
    have hpw := sublist_indexOf_pairwise hsub hnd
    have hsort : (((componentsOf w k).map
          (fun ev => (canonOf w ev.1, ev.2))).map (·.1)).Pairwise (· < ·) := by
      simp only [List.map_map, List.pairwise_map, Function.comp_def]
      rw [List.pairwise_map] at hpw
      exact hpw.imp (fun h => by simpa [canonOf] using h)
    have hbound : ∀ p ∈ (componentsOf w k).map (fun ev => (canonOf w ev.1, ev.2)),
        0 ≤ p.1 ∧ p.1 < 0 + w.rows.length := by
      intro p hp
      obtain ⟨ev, hev, rfl⟩ := List.mem_map.mp hp
      refine ⟨Nat.zero_le _, ?_⟩
      show canonOf w ev.1 < 0 + w.rows.length
      have hmem : ev.1 ∈ w.rows.map (·.1) := hsub.subset (List.mem_map_of_mem _ hev)
      have hlt := List.indexOf_lt_length.mpr hmem
      unfold canonOf
      simpa using hlt
    have hfun : ∀ i ∈ List.range w.rows.length,
        ((fun er => ((er.2.lookup k).map (fun v => (er.1, v))) :
            Nat × List (String × β) → Option (Nat × β)) ∘ (fun i =>
          (i, (serialize reg w).comps.filterMap (fun kl =>
            (kl.2.lookup i).map (fun v => (kl.1, v)))))) i
          = (((componentsOf w k).map (fun ev => (canonOf w ev.1, ev.2))).lookup i).map
              (fun v => (i, v)) := by
      intro i _
      show (((serialize reg w).comps.filterMap (fun kl =>
          (kl.2.lookup i).map (fun v => (kl.1, v)))).lookup k).map (fun v => (i, v)) = _
      rw [hrow i, hlook]
      rfl
    rw [List.filterMap_congr hfun, List.range_eq_range']
    exact range'_filterMap_lookup w.rows.length 0 _ hsort hbound
  · have hlook := serialize_comps_lookup_none reg w k hk
    have hk' : k ∉ usedKeys w := by
      intro hmem
      exact hk (List.mem_filter.mpr ⟨hmem, by simp [hkeys k hmem]⟩)
    have hempty : (w.rows.filterMap (fun er => (er.2.lookup k).map (fun v => (er.1, v))))
        = ([] : List (Nat × β)) := componentsOf_not_used w k hk'
    rw [hempty, List.map_nil, List.filterMap_eq_nil_iff]
    intro i _
    show (((serialize reg w).comps.filterMap (fun kl =>
        (kl.2.lookup i).map (fun v => (kl.1, v)))).lookup k).map (fun v => (i, v)) = none
    rw [hrow i, hlook]
    rfl

end Ser

/-! ## Walk order depends only on the edge list and the node count -/

theorem PGraph.outNeighbors_congr {α γ : Type} (g₁ : PGraph α) (g₂ : PGraph γ)
    (he : g₁.edges = g₂.edges) (i : Nat) : g₁.outNeighbors i = g₂.outNeighbors i := by
  unfold PGraph.outNeighbors
  rw [he]

theorem PGraph.dfsRun_congr {α γ : Type} (g₁ : PGraph α) (g₂ : PGraph γ)
    (he : g₁.edges = g₂.edges) :
    ∀ (fuel : Nat) (stack disc : List Nat),
      PGraph.dfsRun g₁ fuel stack disc = PGraph.dfsRun g₂ fuel stack disc := by
  intro fuel
  induction fuel with
  | zero => intro stack disc; rfl
  | succ fuel ih =>
    intro stack disc
    cases stack with
    | nil => rfl
    | cons n rest =>
      show (if disc.contains n then PGraph.dfsRun g₁ fuel rest disc
          else n :: PGraph.dfsRun g₁ fuel
            (((g₁.outNeighbors n).filter (fun m => !(disc.contains m))).reverse ++ rest)
            (n :: disc))
        = (if disc.contains n then PGraph.dfsRun g₂ fuel rest disc
          else n :: PGraph.dfsRun g₂ fuel
            (((g₂.outNeighbors n).filter (fun m => !(disc.contains m))).reverse ++ rest)
            (n :: disc))
      rw [PGraph.outNeighbors_congr g₁ g₂ he n]
      by_cases hd : disc.contains n
      · rw [if_pos hd, if_pos hd, ih rest disc]
      · rw [if_neg hd, if_neg hd, ih _ (n :: disc)]

theorem PGraph.walkOrder_congr {α γ : Type} (g₁ : PGraph α) (g₂ : PGraph γ)
    (he : g₁.edges = g₂.edges) (hn : g₁.nodes.length = g₂.nodes.length) :
    g₁.walkOrder = g₂.walkOrder := by
  unfold PGraph.walkOrder PGraph.rootIndices PGraph.dfsFuel PGraph.hasParents
  unfold PGraph.firstParent PGraph.incomingSources
  simp only [he, hn]
  congr 1
  funext r
  exact PGraph.dfsRun_congr g₁ g₂ he _ [r] []

/-! ## C9 — the claim theorem and its witness -/

/-- A registry snapshot for the C9 witness. -/
def c9Reg : List String := ["transform", "light"]

/-- A concrete serializer-view world for the C9 witness: two entities with
registered components and one scene graph over them. -/
def c9World : Ser.SWorld Nat :=
  ⟨[(7, [("transform", 1)]), (3, [("light", 2), ("transform", 4)])], [⟨[7, 3], [(0, 1)]⟩]⟩

/-- **C9**: for a world whose entity ids are distinct and whose component keys
are all registered, deserializing the serialized blob succeeds and reproduces
the world up to the canonical renaming of entity ids: equal entity count, equal
component tables for every key, and the same scene graphs — hence the same
entity sequence by walk order — under the rename, which is injective on the
live ids; and deserializing any blob that holds an unregistered component key
is an error rather than silent data loss. -/
theorem C9_serialization_round_trip {β : Type} (reg : List String) (w : Ser.SWorld β)
    (hnd : (w.rows.map (·.1)).Nodup)
    (hkeys : ∀ k ∈ Ser.usedKeys w, k ∈ reg) :
    (∃ w' : Ser.SWorld β,
      Ser.deserialize reg (Ser.serialize reg w) = Except.ok w' ∧
      w'.rows.length = w.rows.length ∧
      (∀ k, Ser.componentsOf w' k
          = (Ser.componentsOf w k).map (fun ev => (Ser.canonOf w ev.1, ev.2))) ∧
      w'.graphs = w.graphs.map (fun g => ⟨g.nodes.map (Ser.canonOf w), g.edges⟩) ∧
      (∀ g ∈ w.graphs,
        (PGraph.walkOrder (⟨g.nodes.map (Ser.canonOf w), g.edges⟩ : PGraph Nat)).map
            (fun i => (g.nodes.map (Ser.canonOf w))[i]?)
          = (g.walkOrder.map (fun i => g.nodes[i]?)).map (Option.map (Ser.canonOf w))) ∧
      (∀ e₁ ∈ w.rows.map (·.1), ∀ e₂ ∈ w.rows.map (·.1),
        Ser.canonOf w e₁ = Ser.canonOf w e₂ → e₁ = e₂)) ∧
    (∀ b : Ser.Blob β, (∃ kl ∈ b.comps, kl.1 ∉ reg) →
      Ser.deserialize reg b = Except.error RegErr.unregisteredComponent) := by
  constructor
  · have hall : (((Ser.serialize reg w).comps).all (fun kl => reg.contains kl.1)) = true := by
      rw [List.all_eq_true]
      intro kl hkl
      have h1 : kl.1 ∈ ((Ser.serialize reg w).comps.map (·.1)) := List.mem_map_of_mem _ hkl
      rw [Ser.serialize_comps_keys] at h1
      have h2 := (List.mem_filter.mp h1).2
      simpa using h2
    refine ⟨⟨(List.range w.rows.length).map (fun i =>
        (i, (Ser.serialize reg w).comps.filterMap (fun kl =>
          (kl.2.lookup i).map (fun v => (kl.1, v))))),
        w.graphs.map (fun g => ⟨g.nodes.map (Ser.canonOf w), g.edges⟩)⟩,
      ?_, ?_, ?_, ?_, ?_, ?_⟩
    · simp only [Ser.deserialize, hall, if_true]
      rfl
    · simp
    · intro k
      exact Ser.componentsOf_deser reg w _ hnd hkeys k
    · rfl
    · intro g hg
      have he : (⟨g.nodes.map (Ser.canonOf w), g.edges⟩ : PGraph Nat).edges = g.edges := rfl
      have hn : (⟨g.nodes.map (Ser.canonOf w), g.edges⟩ : PGraph Nat).nodes.length
          = g.nodes.length := by simp
      rw [PGraph.walkOrder_congr _ g he hn]
      simp [List.getElem?_map, List.map_map, Function.comp_def]
    · intro e₁ h₁ e₂ h₂ hc
      exact (List.indexOf_inj h₁ h₂).mp hc
  · intro b hb
    obtain ⟨kl, hkl, hnot⟩ := hb
    have hfalse : (b.comps.all (fun kl => reg.contains kl.1)) = false := by
      cases hcase : b.comps.all (fun kl => reg.contains kl.1) with
      | false => rfl
      | true =>
        exfalso
        have h2 := List.all_eq_true.mp hcase kl hkl
        exact hnot (by simpa using h2)
    unfold Ser.deserialize
    rw [hfalse]
    simp only [Bool.false_eq_true, if_false]

/-- C9 witness: the hypotheses hold of the concrete two-entity world and the
round trip conclusion follows for it. -/
theorem C9_serialization_round_trip_witness :
    ((c9World.rows.map (·.1)).Nodup ∧ (∀ k ∈ Ser.usedKeys c9World, k ∈ c9Reg)) ∧
    ((∃ w' : Ser.SWorld Nat,
      Ser.deserialize c9Reg (Ser.serialize c9Reg c9World) = Except.ok w' ∧
      w'.rows.length = c9World.rows.length ∧
      (∀ k, Ser.componentsOf w' k
          = (Ser.componentsOf c9World k).map (fun ev => (Ser.canonOf c9World ev.1, ev.2))) ∧
      w'.graphs = c9World.graphs.map (fun g => ⟨g.nodes.map (Ser.canonOf c9World), g.edges⟩) ∧
      (∀ g ∈ c9World.graphs,
        (PGraph.walkOrder (⟨g.nodes.map (Ser.canonOf c9World), g.edges⟩ : PGraph Nat)).map
            (fun i => (g.nodes.map (Ser.canonOf c9World))[i]?)
          = (g.walkOrder.map (fun i => g.nodes[i]?)).map (Option.map (Ser.canonOf c9World))) ∧
      (∀ e₁ ∈ c9World.rows.map (·.1), ∀ e₂ ∈ c9World.rows.map (·.1),
        Ser.canonOf c9World e₁ = Ser.canonOf c9World e₂ → e₁ = e₂)) ∧
    (∀ b : Ser.Blob Nat, (∃ kl ∈ b.comps, kl.1 ∉ c9Reg) →
      Ser.deserialize c9Reg b = Except.error RegErr.unregisteredComponent)) :=
  ⟨⟨by decide, by decide⟩,
    C9_serialization_round_trip c9Reg c9World (by decide) (by decide)⟩

end Phantom
